import Mathlib

/-!
Shallow embedding of `larpWikiAnomalyScanner.py` (single-file Python program).

Lines of wiki text are modelled as `List Char` (Python strings are sequences
of Unicode codepoints).  Python integers are modelled as `Int` wherever the
source can produce negative values, and as `Nat` for list indices that are
manifestly non-negative.  Regular expressions of the source are hand-compiled
to deterministic matching functions; every such function is documented with
the regex it implements and follows the backtracking semantics of Python's
`re` module for that particular pattern (leftmost match, greedy/lazy
quantifiers, alternation trying the left branch first).
-/

set_option autoImplicit false

namespace LarpWiki

/-- Character set matched by Python's `\s` (see `str.isspace`, used by the
`re` module for `str` patterns). -/
def pyIsSpace (c : Char) : Bool :=
  let n := c.toNat
  decide ((0x9 ≤ n ∧ n ≤ 0xd) ∨ (0x1c ≤ n ∧ n ≤ 0x1f) ∨ n = 0x20 ∨ n = 0x85 ∨
    n = 0xa0 ∨ n = 0x1680 ∨ (0x2000 ≤ n ∧ n ≤ 0x200a) ∨ n = 0x2028 ∨ n = 0x2029 ∨
    n = 0x202f ∨ n = 0x205f ∨ n = 0x3000)

/-- Models Python's `unicodedata.category`.  The table is exact for the ASCII
range (the only codepoints appearing in concrete inputs of this development);
codepoints at and above U+0080 are approximated by coarse ranges (C1 controls,
NBSP, soft hyphen, zero-width format characters, line/paragraph separators,
the replacement character, the combining-diacritics block; every other
codepoint is classified as a letter).  No theorem below depends on the values
of this table outside ASCII. -/
def ucdCategory (c : Char) : String :=
  let n := c.toNat
  if n < 0x20 ∨ n = 0x7f then "Cc"
  else if c = ' ' then "Zs"
  else if c ∈ ['!', '"', '#', '%', '&', '\'', '*', ',', '.', '/', ':', ';', '?', '@', '\\']
    then "Po"
  else if c = '$' then "Sc"
  else if c ∈ ['+', '<', '=', '>', '|', '~'] then "Sm"
  else if c = '^' ∨ c = Char.ofNat 96 then "Sk"
  else if c ∈ ['(', '[', Char.ofNat 123] then "Ps"
  else if c ∈ [')', ']', Char.ofNat 125] then "Pe"
  else if c = '-' then "Pd"
  else if c = '_' then "Pc"
  else if decide (48 ≤ n ∧ n ≤ 57) then "Nd"
  else if decide (65 ≤ n ∧ n ≤ 90) then "Lu"
  else if n < 0x7f then "Ll"
  else if n ≤ 0x9f then "Cc"
  else if n = 0xa0 then "Zs"
  else if n = 0xad then "Cf"
  else if decide (0x200b ≤ n ∧ n ≤ 0x200f) then "Cf"
  else if n = 0x2028 then "Zl"
  else if n = 0x2029 then "Zp"
  else if n = 0xfffd then "So"
  else if decide (0x300 ≤ n ∧ n ≤ 0x36f) then "Mn"
  else "Lo"

/-- First letter of the Unicode general category (the source reads
`cpCat[0]`). -/
def catMain (c : Char) : Char := (ucdCategory c).data.headD 'C'

/-- Models Python's `unicodedata.name(cp, r'unnamed')`.  The actual character
names never influence control flow in the source (they only appear inside one
anomaly message), so the fallback is returned for every codepoint. -/
def ucdName (_ : Char) : String := "unnamed"

/-- Models Python's `str.isprintable`: everything is printable except the
space-separator and C* categories, with SPACE itself printable. -/
def pyIsPrintable (c : Char) : Bool :=
  c = ' ' || !(catMain c = 'C' || ucdCategory c ∈ (["Zs", "Zl", "Zp"] : List String))

/-- Lowercase hex digit, as used by Python `repr` escape sequences. -/
def hexDigitChar (n : Nat) : Char :=
  if n < 10 then Char.ofNat (48 + n) else Char.ofNat (87 + n)

/-- Big-endian fixed-width hex rendering of a number. -/
def hexChars : Nat → Nat → List Char
  | 0, _ => []
  | w + 1, n => hexChars w (n / 16) ++ [hexDigitChar (n % 16)]

/-- `TextEscaper.escape` applied to a single codepoint: Python's
`repr(text)[1:-1].replace('"', '\"')` for a one-character string.  `repr`
keeps printable characters (choosing the quote so that a lone `'` needs no
backslash), renders `\`, TAB, LF, CR with two-character escapes, and renders
any other non-printable codepoint as `\xXX`, `\uXXXX` or `\UXXXXXXXX`; the
subsequent `.replace` turns `"` into `\"`. -/
def escape (c : Char) : String :=
  if c = '\\' then "\\\\"
  else if c = '"' then "\\\""
  else if c = '\t' then "\\t"
  else if c = '\n' then "\\n"
  else if c = '\r' then "\\r"
  else if c.toNat < 0x20 ∨ c.toNat = 0x7f then String.mk ('\\' :: 'x' :: hexChars 2 c.toNat)
  else if c.toNat < 0x7f then String.mk [c]
  else if pyIsPrintable c then String.mk [c]
  else if c.toNat ≤ 0xff then String.mk ('\\' :: 'x' :: hexChars 2 c.toNat)
  else if c.toNat ≤ 0xffff then String.mk ('\\' :: 'u' :: hexChars 4 c.toNat)
  else String.mk ('\\' :: 'U' :: hexChars 8 c.toNat)

/-- Concatenation of the per-codepoint escapes of a string, i.e. the text that
`TextEscaper.escapeLimitRight` produces when nothing is truncated. -/
def escStr : List Char → String
  | [] => ""
  | c :: rest => escape c ++ escStr rest

/-- Total escaped length of a string. -/
def escLen (s : List Char) : Nat := (s.map fun c => (escape c).length).sum

/-- Loop body of `TextEscaper.escapeLimitRight`: walk the codepoints from the
left, keep a codepoint when its escape still fits into `maxLength` given the
`length` already used, stop at the first codepoint that does not fit (also
stopping early once `length == maxLength`).  Returns the kept escaped text and
the number of raw codepoints consumed. -/
def escapeLimitRightGo (maxLength : Int) : List Char → Int → String × Nat
  | [], _ => ("", 0)
  | c :: rest, length =>
    let e := escape c
    let newLength := length + e.length
    if maxLength < newLength then ("", 0)
    else if newLength = maxLength then (e, 1)
    else
      let t := escapeLimitRightGo maxLength rest newLength
      (e ++ t.1, t.2 + 1)

/-- `TextEscaper.escapeLimitRight`. -/
def escapeLimitRight (text : List Char) (maxLength : Int) : String × Nat :=
  if maxLength ≤ 0 then ("", 0) else escapeLimitRightGo maxLength text 0

/-- Loop body of `TextEscaper.escapeLimitLeft`: identical to the right-edge
loop except that the input is walked from the right (the caller passes the
reversed text) and kept escapes are prepended. -/
def escapeLimitLeftGo (maxLength : Int) : List Char → Int → String × Nat
  | [], _ => ("", 0)
  | c :: rest, length =>
    let e := escape c
    let newLength := length + e.length
    if maxLength < newLength then ("", 0)
    else if newLength = maxLength then (e, 1)
    else
      let t := escapeLimitLeftGo maxLength rest newLength
      (t.1 ++ e, t.2 + 1)

/-- `TextEscaper.escapeLimitLeft`. -/
def escapeLimitLeft (text : List Char) (maxLength : Int) : String × Nat :=
  if maxLength ≤ 0 then ("", 0) else escapeLimitLeftGo maxLength text.reverse 0

/-! ### Excerpt formatter (`AnomalyOutputter.out`, lines 140-183) -/

/-- Decoration-free parts of the excerpt built by `AnomalyOutputter.out`:
before-context, highlighted part, after-context, start-of-line marker and
end-of-line marker.  Follows the source statement by statement.  Python's
`int(ml / 2)` is modelled as integer division: at that point `ml ≥ 0`, so
truncating float division and `Int` division agree (for any realistic
magnitude). -/
def renderExcerpt (line : List Char) (startColumn endColumn : Nat)
    (maxPartLength minAfterLength : Int) :
    String × String × String × String × String :=
  let ml0 := maxPartLength
  let t := escapeLimitRight ((line.drop startColumn).take (endColumn - startColumn)) ml0
  let part := t.1
  let partCpLength := t.2
  let partComplete : Bool := decide ((endColumn : Int) - (startColumn : Int) - (partCpLength : Int) = 0)
  let ml1 := max 0 (ml0 - (part.length : Int))
  let mal :=
    if partComplete then
      min (min ((line.length : Int) - (endColumn : Int)) (ml1 / 2)) minAfterLength
    else 0
  let bLength := min (startColumn : Int) (ml1 - mal)
  let t2 := escapeLimitLeft (line.take startColumn) bLength
  let before := t2.1
  let beforeCpLength := t2.2
  let ml2 := max 0 (ml1 - (before.length : Int))
  let t3 := if partComplete then escapeLimitRight (line.drop endColumn) ml2 else ("", 0)
  let after := t3.1
  let afterCpLength := t3.2
  let sol := if 0 < (startColumn : Int) - (beforeCpLength : Int) then "…" else "|"
  let eol := if (startColumn : Int) + (partCpLength : Int) + (afterCpLength : Int) < (line.length : Int)
    then "…" else "|"
  (before, part, after, sol, eol)

/-! ### Anomaly events

`AnomalyOutputter.out(path, lineNr, startColumn, endColumn, line, anomaly)`
is modelled as the emission of one `Event`.  Columns are `Int` because one
call site of the source (`Headline without close tag`) computes a column by
subtraction. -/

structure Event where
  path : String
  lineNr : Nat
  startColumn : Int
  endColumn : Int
  line : List Char
  msg : String
deriving DecidableEq, Repr

def mkEv (path : String) (lineNr : Nat) (startColumn endColumn : Int)
    (line : List Char) (msg : String) : Event :=
  ⟨path, lineNr, startColumn, endColumn, line, msg⟩

@[simp] theorem mkEv_path (p : String) (n : Nat) (s e : Int) (l : List Char) (m : String) :
    (mkEv p n s e l m).path = p := rfl

@[simp] theorem mkEv_lineNr (p : String) (n : Nat) (s e : Int) (l : List Char) (m : String) :
    (mkEv p n s e l m).lineNr = n := rfl

@[simp] theorem mkEv_startColumn (p : String) (n : Nat) (s e : Int) (l : List Char) (m : String) :
    (mkEv p n s e l m).startColumn = s := rfl

@[simp] theorem mkEv_endColumn (p : String) (n : Nat) (s e : Int) (l : List Char) (m : String) :
    (mkEv p n s e l m).endColumn = e := rfl

@[simp] theorem mkEv_line (p : String) (n : Nat) (s e : Int) (l : List Char) (m : String) :
    (mkEv p n s e l m).line = l := rfl

@[simp] theorem mkEv_msg (p : String) (n : Nat) (s e : Int) (l : List Char) (m : String) :
    (mkEv p n s e l m).msg = m := rfl

/-! Anomaly messages of the source (string literals of `main`). -/

def msgDecodeErr : String := "UTF-8 invalid byte while decoding line!"
def msgOldList : String := "Old wiki list"
def msgAfterRedirect : String := "Non-empty non-comment line after valid redirect"
def msgRedirectNoTarget : String := "Redirect without target"
def msgRedirectNonFirst : String := "Redirect in non-first line"
def msgIndent : String := "Old wiki indenting"
def msgDefList : String := "Old wiki definition list"
def msgOldLinebreak : String := "Old wiki linebreak"
def msgInvalidLinebreak : String := "Invalid linebreak"
def msgHlLeadWs : String := "Headline starts with whitespace"
def msgHlLevel : String := "Headline of level > 5"
def msgHlMarkup : String := "Headline text contains markup"
def msgHlNoText : String := "Headline contains no text"
def msgHlNoWsOpen : String := "Headline without whitespace after open tag"
def msgHlNumbering : String := "Headline with old numbering indicator"
def msgHlNoClose : String := "Headline without close tag"
def msgHlMismatch : String := "Headline with different length open and close tags"
def msgHlNoWsClose : String := "Headline without whitespace before close tag"
def msgHlTrailWs : String := "Headline ends with whitespace"
def msgLinkInternal : String := "Fail-converted unnamed internal link"
def msgLinkExternal : String := "Fail-converted external link"
def msgUpload : String := "Old wiki upload link"

/-- Message of the obscure-codepoint detector:
`'Unicode {0} ({1}, category {2}){3}'.format(e.escape(cp), cpName, cpCat, suffix)`. -/
def uniMsg (c : Char) (unexpectedMark : Bool) : String :=
  "Unicode " ++ (escape c ++ (" (" ++ (ucdName c ++ (", category " ++ (ucdCategory c ++
    (")" ++ (if unexpectedMark then " not preceded by a letter" else "")))))))

/-- Message of the old-tags detector:
`'Old wiki tag {0} {1}'.format(tagName, tagType)`. -/
def tagMsg (tagName : List Char) (closing : Bool) : String :=
  "Old wiki tag " ++ (String.mk tagName ++ (" " ++ (if closing then "close" else "open")))

/-! ### Matching helpers -/

/-- Length of the maximal leading run of characters satisfying `p` (the text
matched by a greedy `X*` whose class is decided by `p`). -/
def runLen (p : Char → Bool) (l : List Char) : Nat := (l.takeWhile p).length

/-- Case-insensitive prefix test, modelling `re.IGNORECASE` matching of an
ASCII literal pattern (the source only uses it on the ASCII tag names and on
`upload:`). -/
def prefixIMatch : List Char → List Char → Bool
  | [], _ => true
  | _ :: _, [] => false
  | p :: ps, c :: cs => (p.toLower = c.toLower : Bool) && prefixIMatch ps cs

/-- Index of the last element of `l` satisfying `p` (used for the backtracking
of a greedy run followed by a mandatory literal, e.g. `[>` + backtick + `]*>`:
the engine gives back characters until the final mandatory character matches,
which keeps the run up to and including its last matching character). -/
def lastIdx (p : Char → Bool) (l : List Char) : Option Nat :=
  match l.reverse.findIdx? p with
  | none => none
  | some k => some (l.length - 1 - k)

/-- Maximal runs of characters satisfying `p`, as `(start, stop)` index pairs
relative to index `i`.  `fuel` is a structural recursion bound; every step
consumes at least one list element, so `l.length + 1` always suffices. -/
def charRunsGo (p : Char → Bool) : Nat → List Char → Nat → List (Nat × Nat)
  | 0, _, _ => []
  | fuel + 1, l, i =>
    match l with
    | [] => []
    | c :: rest =>
      if p c then
        (i, i + 1 + runLen p rest) ::
          charRunsGo p fuel (rest.drop (runLen p rest)) (i + 1 + runLen p rest)
      else
        charRunsGo p fuel rest (i + 1)

def charRuns (p : Char → Bool) (l : List Char) (i : Nat) : List (Nat × Nat) :=
  charRunsGo p (l.length + 1) l i

/-- Driver for `re.finditer`: try a match at every index from left to right,
emit the events of each match and continue after its end (our patterns never
match the empty string, so the scan always advances by at least one
position).  `fuel` bounds the number of match attempts; it is called with
`line.length + 1`, which covers every start position of the line because
each step advances the position by at least one (attempts beyond the line
end simply fail). -/
def scanIter (step : Nat → Option (Nat × List Event)) : Nat → Nat → List Event
  | _, 0 => []
  | i, fuel + 1 =>
    match step i with
    | none => scanIter step (i + 1) fuel
    | some (e, evs) => evs ++ scanIter step (max e (i + 1)) fuel

/-! ### Obscure codepoints detector (source lines 338-382) -/

/-- Whitelist of the codepoint scan: TAB, SOFT HYPHEN, ZERO WIDTH JOINER,
LEFT-TO-RIGHT MARK (the source tuple also contains `None`, which never equals
a codepoint). -/
def uniWhitelisted (c : Char) : Bool :=
  c = '\t' || c = Char.ofNat 0xad || c = Char.ofNat 0x200d || c = Char.ofNat 0x200e

/-- One step of the codepoint scan: decides whether codepoint `c` is an
anomaly and whether it is an unexpected combining mark, and updates the
`markAllowed` flag, exactly as the body of the `for cpIndex, cp` loop. -/
def uniStep (markAllowed : Bool) (c : Char) : Bool × Bool × Bool :=
  let m := catMain c
  let anomaly0 := !(m ∈ (['L', 'N', 'P', 'S', 'Z'] : List Char) || uniWhitelisted c)
  let anomaly1 := if c = Char.ofNat 0xfffd then true else anomaly0
  if m = 'M' then
    if markAllowed then (false, false, markAllowed) else (true, true, markAllowed)
  else if m = 'L' then (anomaly1, false, true)
  else (anomaly1, false, false)

/-- Codepoint loop of the scan, walking the remaining characters `cs` with
current index `i`. -/
def unicodeScanGo (path : String) (lineNr : Nat) (line : List Char) :
    List Char → Nat → Bool → List Event
  | [], _, _ => []
  | c :: cs, i, markAllowed =>
    let r := uniStep markAllowed c
    (if r.1 then [mkEv path lineNr i (i + 1) line (uniMsg c r.2.1)] else []) ++
      unicodeScanGo path lineNr line cs (i + 1) r.2.2

/-- Obscure-codepoints detector: one event per flagged codepoint. -/
def unicodeScan (path : String) (lineNr : Nat) (line : List Char) : List Event :=
  unicodeScanGo path lineNr line line 0 false

/-! ### Simple anchored matchers -/

/-- `rec.match(r'(\*|#(\*|#(\*|#)))[*#]*', line)`: the alternation admits the
prefixes `*`, `#*`, `##*`, `###`; the greedy `[*#]*` then extends the match to
the maximal leading run of `*`/`#`.  Returns `match.end()` (`match.start()` is
always `0`). -/
def oldListMatch (l : List Char) : Option Nat :=
  let isLi : Char → Bool := fun c => c = '*' || c = '#'
  match l with
  | '*' :: _ => some (runLen isLi l)
  | '#' :: '*' :: _ => some (runLen isLi l)
  | '#' :: '#' :: '*' :: _ => some (runLen isLi l)
  | '#' :: '#' :: '#' :: _ => some (runLen isLi l)
  | _ => none

/-- `rec.match(r'#REDIRECT(\s*)(?P<name>.*)', line)`: anchored literal prefix,
greedy whitespace, then `name` captures the rest of the line.  Returns the
`name` group. -/
def redirectMatch (l : List Char) : Option (List Char) :=
  if "#REDIRECT".data.isPrefixOf l then some ((l.drop 9).dropWhile pyIsSpace) else none

/-- `rec.match(r'\s*(\S.*?)\s*$', line)`: succeeds iff the line contains a
non-whitespace character; group 1 then spans from the first to the last
non-whitespace character (lazy `.*?` against the trailing greedy `\s*$`).
Returns `(match.start(1), match.end(1))`. -/
def trimMatch (l : List Char) : Option (Nat × Nat) :=
  let s := runLen pyIsSpace l
  if s = l.length then none
  else some (s, l.length - runLen pyIsSpace l.reverse)

/-- The first-character detector's pattern
`^(?P<firstChar>[:;])((?P<extraChars>[:;]*)|($|[^-\(\x7b\[\|\)\x7d\]pPD]))`
(VERBOSE comments elided): after `firstChar`, the left alternative `[:;]*`
always succeeds (possibly matching the empty string), so the smiley-excluding
right alternative is unreachable.  Returns `(firstChar, len(extraChars))`. -/
def firstCharMatch (l : List Char) : Option (Char × Nat) :=
  match l with
  | [] => none
  | c :: rest =>
    if c = ':' || c = ';' then some (c, runLen (fun x => x = ':' || x = ';') rest)
    else none

/-! ### Old wiki tags detector (source lines 448-459) -/

/-- Alternatives of the tag-name group `(b|i|nowiki|pre|toc|tt)`. -/
def tagNames : List (List Char) := ["b".data, "i".data, "nowiki".data, "pre".data, "toc".data, "tt".data]

/-- Matches the name group followed by the literal `>` at the head of `r`
(case-insensitively); returns the actual matched name text. -/
def tryTagNames (r : List Char) : Option (List Char) :=
  tagNames.findSome? fun name =>
    if prefixIMatch name r && decide (r[name.length]? = some '>') then some (r.take name.length)
    else none

/-- Helper of `tagMatchAt` for the part after `<` and the optional `/`. -/
def tagMatchAfter (closing : Bool) (r : List Char) : Option (Nat × Bool × List Char) :=
  match tryTagNames r with
  | some name => some ((if closing then 2 else 1) + name.length + 1, closing, name)
  | none => none

/-- Match of `<(?P<close>[/]?)(?P<name>(b|i|nowiki|pre|toc|tt))>` (IGNORECASE)
at index `i`; returns `(match length, closing, name text)`. -/
def tagMatchAt (l : List Char) (i : Nat) : Option (Nat × Bool × List Char) :=
  match l.drop i with
  | '<' :: '/' :: r2 => tagMatchAfter true r2
  | '<' :: r1 => tagMatchAfter false r1
  | _ => none

def tagStep (path : String) (lineNr : Nat) (l : List Char) (i : Nat) :
    Option (Nat × List Event) :=
  match tagMatchAt l i with
  | some (len, closing, name) =>
    some (i + len, [mkEv path lineNr i (i + len) l (tagMsg name closing)])
  | none => none

/-- Old-tags detector: one event per `finditer` match. -/
def oldTagEvents (path : String) (lineNr : Nat) (l : List Char) : List Event :=
  scanIter (tagStep path lineNr l) 0 (l.length + 1)

/-! ### Forced linebreak detector (source lines 461-481) -/

/-- Match of `(?P<open><[<` backtick `]*)(?P<name>br)(?P<close>[>` backtick
`]*>)` (IGNORECASE, VERBOSE) at index `i`.  The greedy open run is maximal
(a shorter run would put a `<` or backtick where `br` is required); the close
part keeps the `[>`+backtick`]*` run up to and including its last `>` (the
engine backtracks the greedy run until the final mandatory `>` matches).
Returns `(match length, open text, name text, close text)`. -/
def brMatchAt (l : List Char) (i : Nat) :
    Option (Nat × List Char × List Char × List Char) :=
  match l.drop i with
  | '<' :: r1 =>
    let isOp : Char → Bool := fun c => c = '<' || c = Char.ofNat 96
    let opRun := runLen isOp r1
    let r2 := r1.drop opRun
    if prefixIMatch "br".data r2 then
      let r3 := r2.drop 2
      let isCl : Char → Bool := fun c => c = '>' || c = Char.ofNat 96
      let clRun := runLen isCl r3
      match lastIdx (fun c => c = '>') (r3.take clRun) with
      | some j => some (1 + opRun + 2 + j + 1, '<' :: r1.take opRun, r2.take 2, r3.take (j + 1))
      | none => none
    else none
  | _ => none

def brStep (path : String) (lineNr : Nat) (l : List Char) (i : Nat) :
    Option (Nat × List Event) :=
  match brMatchAt l i with
  | some (len, tagOpen, tagName, tagClose) =>
    let evs :=
      if tagOpen = ['<'] ∧ tagClose = ['>'] then
        [mkEv path lineNr i (i + len) l msgOldLinebreak]
      else if tagOpen = ['<', '<'] ∧ tagClose.take 2 = ['>', '>'] ∧ tagName ≠ ['B', 'R'] then
        [mkEv path lineNr i (i + len) l msgInvalidLinebreak]
      else []
    some (i + len, evs)
  | none => none

/-- Forced-linebreak detector: per `finditer` match, the `<..>` pair emits the
legacy anomaly, the `<<..>>` pair with a name other than exactly `BR` emits
the invalid anomaly, any other match emits nothing. -/
def brEvents (path : String) (lineNr : Nat) (l : List Char) : List Event :=
  scanIter (brStep path lineNr l) 0 (l.length + 1)

/-! ### Headline detector (source lines 483-558) -/

/-- Whether a (suffix of a) line belongs to the language `\s*=*\s*`, i.e. can
be split into the `spaceBeforClose`, `closeTag`, `spaceAfterClose` groups plus
the end anchor. -/
def hlSuffixOk (l : List Char) : Bool :=
  ((l.dropWhile pyIsSpace).dropWhile fun c => c = '=').all pyIsSpace

/-- Search loop for the end position of the lazy `(?P<text>.*?)` group: the
smallest `q ≥ p` such that the rest of the line matches `(\s*)([=]*)(\s*)$`.
`fuel` is a structural recursion bound; the empty suffix always qualifies, so
the search ends at `p = l.length` at the latest and the initial fuel
`l.length + 1` is never exhausted for the start positions that occur. -/
def findQGo (l : List Char) : Nat → Nat → Nat
  | 0, p => p
  | fuel + 1, p => if hlSuffixOk (l.drop p) then p else findQGo l fuel (p + 1)

def findQ (l : List Char) (p : Nat) : Nat := findQGo l (l.length + 1) p

/-- Decomposition of a line by the headline regex
`^(\s*)([=]+)(\s*)([\#*]*)\s*(.*?)(\s*)([=]*)(\s*)$` (group names elided):
`a`,`b`,`c`,`d`,`e2` are the lengths of the five leading greedy groups, `q`
is where the lazy text group ends, `w1` and `g` are the lengths of
`spaceBeforClose` and `closeTag`.  `spaceAfterClose` spans from `q + w1 + g`
to the end of the line.  The pattern is anchored at both ends, so `finditer`
yields at most one match, and a match exists iff the line starts with
whitespace followed by at least one `=`. -/
structure HlMatch where
  a : Nat
  b : Nat
  c : Nat
  d : Nat
  e2 : Nat
  q : Nat
  w1 : Nat
  g : Nat
deriving Repr, DecidableEq

def headlineMatch (l : List Char) : Option HlMatch :=
  let a := runLen pyIsSpace l
  let b := runLen (fun c => c = '=') (l.drop a)
  if b = 0 then none
  else
    let c := runLen pyIsSpace (l.drop (a + b))
    let d := runLen (fun x => x = '#' || x = '*') (l.drop (a + b + c))
    let e2 := runLen pyIsSpace (l.drop (a + b + c + d))
    let q := findQ l (a + b + c + d + e2)
    let w1 := runLen pyIsSpace (l.drop q)
    let g := runLen (fun c => c = '=') (l.drop (q + w1))
    some ⟨a, b, c, d, e2, q, w1, g⟩

/-- Spans of `finditer(r"[` backtick `']{2,}", text)`: the maximal runs of
backtick-or-apostrophe characters of length at least two. -/
def hlMarkupSpans (text : List Char) : List (Nat × Nat) :=
  (charRuns (fun c => c = Char.ofNat 96 || c = '\'') text 0).filter fun r => 2 ≤ r.2 - r.1

/-- Headline detector: the per-match checks of the source, in source order,
with the two `continue`-style cuts (no text, no close tag). -/
def headlineEvents (path : String) (lineNr : Nat) (l : List Char) : List Event :=
  match headlineMatch l with
  | none => []
  | some m =>
    let p := m.a + m.b + m.c + m.d + m.e2
    let text := (l.drop p).take (m.q - p)
    (if 0 < m.a then [mkEv path lineNr 0 m.a l msgHlLeadWs] else []) ++
    (if 5 < m.b then [mkEv path lineNr m.a (m.a + m.b) l msgHlLevel] else []) ++
    (if text = [] then
      [mkEv path lineNr ((m.a : Int) + m.b - 1) l.length l msgHlNoText]
    else
      ((hlMarkupSpans text).map fun r =>
        mkEv path lineNr (p + r.1) (p + r.2) l msgHlMarkup) ++
      (if m.c = 0 then
        let s : Nat := if m.d ≠ 0 then m.a + m.b + m.c else p
        [mkEv path lineNr s (s + 1) l msgHlNoWsOpen]
      else []) ++
      (if m.d ≠ 0 then
        [mkEv path lineNr (m.a + m.b + m.c) (m.a + m.b + m.c + m.d) l msgHlNumbering]
      else []) ++
      (if m.g = 0 then
        [mkEv path lineNr ((l.length : Int) - 1) l.length l msgHlNoClose]
      else
        (if m.b ≠ m.g then
          [mkEv path lineNr (m.q + m.w1) (m.q + m.w1 + m.g) l msgHlMismatch]
        else []) ++
        (if m.w1 = 0 then
          [mkEv path lineNr (m.q + m.w1) (m.q + m.w1 + 1) l msgHlNoWsClose]
        else []) ++
        (if m.q + m.w1 + m.g < l.length then
          [mkEv path lineNr (m.q + m.w1 + m.g) l.length l msgHlTrailWs]
        else [])))

/-! ### Link detector (source lines 560-583) -/

/-- Match of the closing part `\s*(?P<closeQuote>"?)(?P<closeBrackets>[\]`
backtick `]*\])` at the head of `s`; returns the number of characters it
consumes.  The greedy close-bracket run backtracks until its final mandatory
`]` matches, i.e. it is kept up to the last `]` of the run; a shorter
whitespace run or a forgone quote can never rescue a failed close, so the
greedy choices are definitive. -/
def linkCloseMatch (s : List Char) : Option Nat :=
  let w := runLen pyIsSpace s
  let s1 := s.drop w
  let q : Nat := if s1.headD ' ' = '"' then 1 else 0
  let s2 := s1.drop q
  let isCl : Char → Bool := fun c => c = ']' || c = Char.ofNat 96
  let run := runLen isCl s2
  match lastIdx (fun c => c = ']') (s2.take run) with
  | some j => some (w + q + j + 1)
  | none => none

/-- Match of the link pattern `(?P<openBrackets>\[[\[` backtick
`]*)(?P<openQuote>"?)\s*(?P<linkUrl>.*?)\s*(?P<closeQuote>"?)(?P<closeBrackets>[\]`
backtick `]*\])` at index `i`: open bracket run, optional quote and greedy
whitespace, then the lazy URL grows until the closing part matches.  Returns
`(match length, openBrackets length, openQuote present, linkUrl text)`. -/
def linkMatchAt (l : List Char) (i : Nat) : Option (Nat × Nat × Bool × List Char) :=
  match l.drop i with
  | '[' :: r1 =>
    let isOb : Char → Bool := fun c => c = '[' || c = Char.ofNat 96
    let obRun := runLen isOb r1
    let r2 := r1.drop obRun
    let oq : Nat := if r2.headD ' ' = '"' then 1 else 0
    let r3 := r2.drop oq
    let sp := runLen pyIsSpace r3
    let r4 := r3.drop sp
    match (List.range (r4.length + 1)).findSome?
        (fun t => (linkCloseMatch (r4.drop t)).map fun cl => (t, cl)) with
    | some (t, cl) => some (1 + obRun + oq + sp + t + cl, 1 + obRun, oq = 1, r4.take t)
    | none => none
  | _ => none

def linkStep (path : String) (lineNr : Nat) (l : List Char) (i : Nat) :
    Option (Nat × List Event) :=
  match linkMatchAt l i with
  | some (len, obLen, openQuote, linkUrl) =>
    let evs :=
      if openQuote then [mkEv path lineNr i (i + len) l msgLinkInternal]
      else if obLen = 1 ∧ ':' ∈ linkUrl then [mkEv path lineNr i (i + len) l msgLinkExternal]
      else []
    some (i + len, evs)
  | none => none

/-- Link detector: per `finditer` match, a present quote emits the internal
anomaly, else a single open bracket with a colon in the URL emits the
external anomaly. -/
def linkEvents (path : String) (lineNr : Nat) (l : List Char) : List Event :=
  scanIter (linkStep path lineNr l) 0 (l.length + 1)

/-! ### Upload link detector (source lines 585-592) -/

/-- Match of `(?P<link>upload:\S+)` (IGNORECASE) at absolute index `j`:
returns `(end of the link group, end of the whole match)` — the trailing
`(\s|$)` consumes one whitespace character when one follows the greedy
non-whitespace run. -/
def uploadTokenAt (l : List Char) (j : Nat) : Option (Nat × Nat) :=
  if prefixIMatch "upload:".data (l.drop j) then
    let run := runLen (fun c => !pyIsSpace c) (l.drop (j + 7))
    if run = 0 then none
    else
      let le := j + 7 + run
      some (le, if le < l.length then le + 1 else le)
  else none

/-- One `finditer` attempt of `(^|\s)(?P<link>upload:\S+)(\s|$)` at index `i`:
at index 0 the `^` branch is tried first (token starts at 0), then the `\s`
branch (a leading whitespace character, token starts at 1); elsewhere only
the `\s` branch applies. -/
def uploadStep (path : String) (lineNr : Nat) (l : List Char) (i : Nat) :
    Option (Nat × List Event) :=
  if i = 0 then
    match uploadTokenAt l 0 with
    | some (le, me) => some (me, [mkEv path lineNr 0 le l msgUpload])
    | none =>
      if pyIsSpace (l.headD 'x') then
        match uploadTokenAt l 1 with
        | some (le, me) => some (me, [mkEv path lineNr 1 le l msgUpload])
        | none => none
      else none
  else
    if pyIsSpace (l.getD i 'x') then
      match uploadTokenAt l (i + 1) with
      | some (le, me) => some (me, [mkEv path lineNr (i + 1) le l msgUpload])
      | none => none
    else none

/-- Upload-link detector: one event per `finditer` match, located at the
`link` group. -/
def uploadEvents (path : String) (lineNr : Nat) (l : List Char) : List Event :=
  scanIter (uploadStep path lineNr l) 0 (l.length + 1)

/-! ### Per-line pipeline (body of the `for lineNr, line in enumerate(lines)` loop) -/

/-- Per-file classification state: `firstDirectiveLine` (a Python `int`,
initialised to `1` and used as a truth value by `if firstDirectiveLine:`) and
`validRedirectPresent`. -/
structure ScanState where
  firstDirectiveLine : Int
  validRedirectPresent : Bool
deriving Repr, DecidableEq

/-- The content detector chain (old tags, forced linebreaks, headlines,
links, uploads) — the detectors reached when no earlier step of the per-line
pass hit a `continue`. -/
def contentEvents (path : String) (lineNr : Nat) (l : List Char) : List Event :=
  oldTagEvents path lineNr l ++ brEvents path lineNr l ++ headlineEvents path lineNr l ++
    linkEvents path lineNr l ++ uploadEvents path lineNr l

/-- Steps of the per-line pass from the first-character detector on (source
lines 432-592).  The source checks `firstChar == ':'` and then
`firstChar == ';'`; the unreachable third case falls through to the content
chain. -/
def scanLineContent (path : String) (lineNr : Nat) (line : List Char) (st : ScanState) :
    List Event × ScanState :=
  match firstCharMatch line with
  | some (c, extra) =>
    if c = ':' then ([mkEv path lineNr 0 (1 + extra) line msgIndent], st)
    else if c = ';' then ([mkEv path lineNr 0 (1 + extra) line msgDefList], st)
    else (contentEvents path lineNr line, st)
  | none => (contentEvents path lineNr line, st)

/-- Steps of the per-line pass from the redirect detector on (source lines
412-429).  `if firstDirectiveLine:` is Python integer truthiness, i.e.
`firstDirectiveLine ≠ 0`. -/
def scanLineRedirect (path : String) (lineNr : Nat) (line : List Char) (st : ScanState)
    (directiveLine : Bool) : List Event × ScanState :=
  match redirectMatch line with
  | some name =>
    if st.firstDirectiveLine ≠ 0 then
      if name = [] then
        ([mkEv path lineNr 0 line.length line msgRedirectNoTarget], st)
      else ([], { st with validRedirectPresent := true })
    else ([mkEv path lineNr 0 line.length line msgRedirectNonFirst], st)
  | none =>
    if directiveLine then ([], st)
    else scanLineContent path lineNr line st

/-- One iteration of the per-line loop: comment/directive classification,
codepoint scan, list check, comment cut, (dead) `firstDirectiveLine` update,
trailing-after-redirect check, then `scanLineRedirect`. -/
def scanLine (path : String) (lineNr : Nat) (line : List Char) (st : ScanState) :
    List Event × ScanState :=
  let commentLine0 := "##".data.isPrefixOf line
  let directiveLine0 := !commentLine0 && "#".data.isPrefixOf line
  let uniEvs := unicodeScan path lineNr line
  let listM := oldListMatch line
  let commentLine := if listM.isSome then false else commentLine0
  let directiveLine := if listM.isSome then false else directiveLine0
  let listEvs :=
    match listM with
    | some e => [mkEv path lineNr 0 e line msgOldList]
    | none => []
  let evs0 := uniEvs ++ listEvs
  if commentLine then (evs0, st)
  else
    -- Source lines 399-400 sit after the comment `continue`, so `commentLine`
    -- is always false here and the increment never fires; kept verbatim.
    let st1 : ScanState :=
      if st.firstDirectiveLine = (lineNr : Int) ∧ commentLine = true then
        { st with firstDirectiveLine := st.firstDirectiveLine + 1 }
      else st
    let rest :=
      if st1.validRedirectPresent && !directiveLine then
        match trimMatch line with
        | some se =>
          ([mkEv path lineNr se.1 se.2 line msgAfterRedirect], st1)
        | none => scanLineRedirect path lineNr line st1 directiveLine
      else scanLineRedirect path lineNr line st1 directiveLine
    (evs0 ++ rest.1, rest.2)

/-- The per-file line loop, threading the classification state. -/
def scanLinesGo (path : String) : List (List Char) → Nat → ScanState → List Event
  | [], _, _ => []
  | l :: rest, lineNr, st =>
    let r := scanLine path lineNr l st
    r.1 ++ scanLinesGo path rest (lineNr + 1) r.2

/-- Scan of a decoded file: lines enumerated from 0, state initialised to
`firstDirectiveLine = 1`, `validRedirectPresent = False`. -/
def scanLines (path : String) (lines : List (List Char)) : List Event :=
  scanLinesGo path lines 0 ⟨1, false⟩

/-! ### Incremental UTF-8 decoding (source lines 304-330)

Models `codecs.getincrementaldecoder('utf-8')()` fed one byte at a time.
The decoder state is the list of pending bytes of an incomplete multi-byte
sequence; `none` models the `ValueError` raised on a malformed byte. -/

/-- Smallest admissible first continuation byte for a lead byte. -/
def contLo (lead : Nat) : Nat :=
  if lead = 0xe0 then 0xa0 else if lead = 0xf0 then 0x90 else 0x80

/-- Largest admissible first continuation byte for a lead byte (excluding
surrogates after `0xED` and codepoints beyond U+10FFFF after `0xF4`). -/
def contHi (lead : Nat) : Nat :=
  if lead = 0xed then 0x9f else if lead = 0xf4 then 0x8f else 0xbf

/-- Feeding one byte to the incremental UTF-8 decoder: `none` on a malformed
byte, otherwise the new pending state and the completed codepoint, if any. -/
def decStep : List Nat → Nat → Option (List Nat × Option Char)
  | [], b =>
    if b < 0x80 then some ([], some (Char.ofNat b))
    else if decide (0xc2 ≤ b ∧ b ≤ 0xf4) then some ([b], none)
    else none
  | [l], b =>
    if decide (contLo l ≤ b ∧ b ≤ contHi l) then
      if l ≤ 0xdf then some ([], some (Char.ofNat ((l - 0xc0) * 64 + (b - 0x80))))
      else some ([l, b], none)
    else none
  | [l, c1], b =>
    if decide (0x80 ≤ b ∧ b ≤ 0xbf) then
      if l ≤ 0xef then
        some ([], some (Char.ofNat ((l - 0xe0) * 4096 + (c1 - 0x80) * 64 + (b - 0x80))))
      else some ([l, c1, b], none)
    else none
  | [l, c1, c2], b =>
    if decide (0x80 ≤ b ∧ b ≤ 0xbf) then
      some ([], some (Char.ofNat
        ((l - 0xf0) * 262144 + (c1 - 0x80) * 4096 + (c2 - 0x80) * 64 + (b - 0x80))))
    else none
  | _, _ => none

/-- `decoder.decode(textBytes[i:i+1], final)`: processes the byte, then, when
`final` is set, additionally fails if the input ends inside a multi-byte
sequence. -/
def decodeByte (st : List Nat) (b : Nat) (final : Bool) :
    Option (List Nat × Option Char) :=
  match decStep st b with
  | none => none
  | some r => if final && decide (r.1 ≠ []) then none else some r

/-- The byte loop of the source: `lastI = len(textBytes) + 1` and the final
flag passed for byte `i` is `i == lastI` (never true, since `i` ranges over
`0 .. len(textBytes) - 1`).  On success returns the completed lines, the
trailing partial line and the decoder state; on a decode error returns the
lines and partial line reached.  A completed `\n` closes the current line,
removing one `\r` directly before it. -/
def decodeLoopGo (lastI : Nat) :
    List Nat → Nat → List Nat → List (List Char) → List Char →
    Except (List (List Char) × List Char) (List (List Char) × List Char × List Nat)
  | [], _, st, lines, line => .ok (lines, line, st)
  | b :: rest, i, st, lines, line =>
    match decodeByte st b (decide (i = lastI)) with
    | none => .error (lines, line)
    | some (st2, cp) =>
      match cp with
      | none => decodeLoopGo lastI rest (i + 1) st2 lines line
      | some ch =>
        if ch = '\n' then
          let line2 := if line.getLast? = some '\r' then line.dropLast else line
          decodeLoopGo lastI rest (i + 1) st2 (lines ++ [line2]) []
        else decodeLoopGo lastI rest (i + 1) st2 lines (line ++ [ch])

/-- Decode of a whole file's byte sequence. -/
def decodeLoop (textBytes : List Nat) :
    Except (List (List Char) × List Char) (List (List Char) × List Char × List Nat) :=
  decodeLoopGo (textBytes.length + 1) textBytes 0 [] [] []

/-- Scan of one file: on a decode error, a single invalid-encoding anomaly at
`lineNr = len(lines) + 1` and columns `(len(line), len(line) + 1)` on the
partial line, and nothing else; otherwise the trailing partial line is
appended (`lines.append(''.join(line))`) and the per-line pass runs. -/
def scanFile (path : String) (textBytes : List Nat) : List Event :=
  match decodeLoop textBytes with
  | .error (lines, line) =>
    [mkEv path (lines.length + 1) line.length (line.length + 1) line msgDecodeErr]
  | .ok (lines, line, _) => scanLines path (lines ++ [line])

/-- Scan of a sequence of files: the per-file scans are independent (the
classification state is reset per file) and their events concatenate in file
order. -/
def scanFiles (files : List (String × List Nat)) : List Event :=
  (files.map fun f => scanFile f.1 f.2).flatten

/-! ## Lemmas about the escaper -/

theorem hexChars_length (w : Nat) : ∀ n : Nat, (hexChars w n).length = w := by
  induction w with
  | zero => intro n; rfl
  | succ w ih => intro n; simp [hexChars, ih]

theorem escape_length_pos (c : Char) : 1 ≤ (escape c).length := by
  unfold escape
  repeat' split
  all_goals simp [String.length, hexChars_length]

@[simp] theorem escStr_nil : escStr [] = "" := rfl

@[simp] theorem escStr_cons (c : Char) (l : List Char) :
    escStr (c :: l) = escape c ++ escStr l := rfl

@[simp] theorem escLen_nil : escLen [] = 0 := rfl

@[simp] theorem escLen_cons (c : Char) (l : List Char) :
    escLen (c :: l) = (escape c).length + escLen l := by
  simp [escLen]

theorem escStr_length (l : List Char) : (escStr l).length = escLen l := by
  induction l with
  | nil => rfl
  | cons c rest ih => simp [ih]

theorem escStr_append (a b : List Char) : escStr (a ++ b) = escStr a ++ escStr b := by
  induction a with
  | nil => simp
  | cons c rest ih => simp [ih, String.append_assoc]

theorem escLen_append (a b : List Char) : escLen (a ++ b) = escLen a + escLen b := by
  induction a with
  | nil => simp
  | cons c rest ih => simp [ih]; omega

theorem escLen_reverse (l : List Char) : escLen l.reverse = escLen l := by
  simp [escLen, List.map_reverse, List.sum_reverse]

theorem escLen_take_pos (l : List Char) (j : Nat) (h1 : 1 ≤ j) (h2 : j ≤ l.length) :
    1 ≤ escLen (l.take j) := by
  cases j with
  | zero => omega
  | succ j =>
    cases l with
    | nil => simp at h2
    | cons c rest =>
      have := escape_length_pos c
      simp [List.take_succ_cons]
      omega

/-- Invariant of the `escapeLimitRight` loop: starting from `length = L ≤ m`,
the loop keeps exactly a prefix of the text, returns its escape and its
codepoint count, the kept prefix fits into the budget, and no longer prefix
does. -/
theorem escRightGo_spec (m : Int) (s : List Char) : ∀ L : Int, L ≤ m →
    (escapeLimitRightGo m s L).1 = escStr (s.take (escapeLimitRightGo m s L).2) ∧
    (escapeLimitRightGo m s L).2 ≤ s.length ∧
    L + (escLen (s.take (escapeLimitRightGo m s L).2) : Int) ≤ m ∧
    ∀ j, (escapeLimitRightGo m s L).2 < j → j ≤ s.length →
      m < L + (escLen (s.take j) : Int) := by
  induction s with
  | nil =>
    intro L hL
    simp only [escapeLimitRightGo]
    refine ⟨rfl, by simp, by simpa using hL, ?_⟩
    intro j hj hj2
    simp at hj2
    omega
  | cons c rest ih =>
    intro L hL
    simp only [escapeLimitRightGo]
    by_cases hlt : m < L + ((escape c).length : Int)
    · simp only [if_pos hlt]
      refine ⟨rfl, by simp, by simpa using hL, ?_⟩
      intro j hj hj2
      obtain ⟨j2, rfl⟩ : ∃ j2, j = j2 + 1 := ⟨j - 1, by omega⟩
      have hnn : (0 : Int) ≤ (escLen (rest.take j2) : Int) := by positivity
      simp only [List.take_succ_cons, escLen_cons]
      push_cast
      omega
    · simp only [if_neg hlt]
      by_cases heq : L + ((escape c).length : Int) = m
      · simp only [if_pos heq]
        refine ⟨by simp, by simp, ?_, ?_⟩
        · simp only [List.take_succ_cons, List.take_zero, escLen_cons, escLen_nil]
          push_cast
          omega
        · intro j hj hj2
          obtain ⟨j2, rfl⟩ : ∃ j2, j = j2 + 1 := ⟨j - 1, by omega⟩
          simp only [List.length_cons] at hj2
          have hpos : 1 ≤ escLen (rest.take j2) := escLen_take_pos rest j2 (by omega) (by omega)
          simp only [List.take_succ_cons, escLen_cons]
          push_cast
          omega
      · simp only [if_neg heq]
        have hle : L + ((escape c).length : Int) ≤ m := by omega
        obtain ⟨h1, h2, h3, h4⟩ := ih (L + (escape c).length) hle
        refine ⟨?_, by simpa using Nat.succ_le_succ h2, ?_, ?_⟩
        · simp only [List.take_succ_cons, escStr_cons, h1]
        · simp only [List.take_succ_cons, escLen_cons]
          push_cast
          omega
        · intro j hj hj2
          obtain ⟨j2, rfl⟩ : ∃ j2, j = j2 + 1 := ⟨j - 1, by omega⟩
          simp only [List.length_cons] at hj2
          have := h4 j2 (by omega) (by omega)
          simp only [List.take_succ_cons, escLen_cons]
          push_cast
          push_cast at this
          omega

/-- Characterization of `TextEscaper.escapeLimitRight`: the result is the
escape of a prefix of the text together with its codepoint count, the prefix
fits into the budget, and it is the longest prefix that does. -/
theorem escapeLimitRight_spec (s : List Char) (m : Int) :
    (escapeLimitRight s m).1 = escStr (s.take (escapeLimitRight s m).2) ∧
    (escapeLimitRight s m).2 ≤ s.length ∧
    (escLen (s.take (escapeLimitRight s m).2) : Int) ≤ max m 0 ∧
    ∀ j, (escapeLimitRight s m).2 < j → j ≤ s.length →
      m < (escLen (s.take j) : Int) := by
  unfold escapeLimitRight
  split
  · rename_i hm
    refine ⟨rfl, by simp, by simp, ?_⟩
    intro j hj hj2
    have := escLen_take_pos s j (by omega) hj2
    omega
  · rename_i hm
    obtain ⟨h1, h2, h3, h4⟩ := escRightGo_spec m s 0 (by omega)
    exact ⟨h1, h2, by omega, fun j hj hj2 => by have := h4 j hj hj2; omega⟩

/-- Same invariant for the `escapeLimitLeft` loop, which walks its input from
the head but prepends kept escapes; the kept prefix of the (already reversed)
input is returned in reversed order. -/
theorem escLeftGo_spec (m : Int) (s : List Char) : ∀ L : Int, L ≤ m →
    (escapeLimitLeftGo m s L).1 = escStr (s.take (escapeLimitLeftGo m s L).2).reverse ∧
    (escapeLimitLeftGo m s L).2 ≤ s.length ∧
    L + (escLen (s.take (escapeLimitLeftGo m s L).2) : Int) ≤ m ∧
    ∀ j, (escapeLimitLeftGo m s L).2 < j → j ≤ s.length →
      m < L + (escLen (s.take j) : Int) := by
  induction s with
  | nil =>
    intro L hL
    simp only [escapeLimitLeftGo]
    refine ⟨rfl, by simp, by simpa using hL, ?_⟩
    intro j hj hj2
    simp at hj2
    omega
  | cons c rest ih =>
    intro L hL
    simp only [escapeLimitLeftGo]
    by_cases hlt : m < L + ((escape c).length : Int)
    · simp only [if_pos hlt]
      refine ⟨rfl, by simp, by simpa using hL, ?_⟩
      intro j hj hj2
      obtain ⟨j2, rfl⟩ : ∃ j2, j = j2 + 1 := ⟨j - 1, by omega⟩
      have hnn : (0 : Int) ≤ (escLen (rest.take j2) : Int) := by positivity
      simp only [List.take_succ_cons, escLen_cons]
      push_cast
      omega
    · simp only [if_neg hlt]
      by_cases heq : L + ((escape c).length : Int) = m
      · simp only [if_pos heq]
        refine ⟨by simp, by simp, ?_, ?_⟩
        · simp only [List.take_succ_cons, List.take_zero, escLen_cons, escLen_nil]
          push_cast
          omega
        · intro j hj hj2
          obtain ⟨j2, rfl⟩ : ∃ j2, j = j2 + 1 := ⟨j - 1, by omega⟩
          simp only [List.length_cons] at hj2
          have hpos : 1 ≤ escLen (rest.take j2) := escLen_take_pos rest j2 (by omega) (by omega)
          simp only [List.take_succ_cons, escLen_cons]
          push_cast
          omega
      · simp only [if_neg heq]
        have hle : L + ((escape c).length : Int) ≤ m := by omega
        obtain ⟨h1, h2, h3, h4⟩ := ih (L + (escape c).length) hle
        refine ⟨?_, by simpa using Nat.succ_le_succ h2, ?_, ?_⟩
        · simp only [List.take_succ_cons, List.reverse_cons, escStr_append, h1]
          simp
        · simp only [List.take_succ_cons, escLen_cons]
          push_cast
          omega
        · intro j hj hj2
          obtain ⟨j2, rfl⟩ : ∃ j2, j = j2 + 1 := ⟨j - 1, by omega⟩
          simp only [List.length_cons] at hj2
          have := h4 j2 (by omega) (by omega)
          simp only [List.take_succ_cons, escLen_cons]
          push_cast
          push_cast at this
          omega

theorem escLen_pos (l : List Char) (h : l ≠ []) : 1 ≤ escLen l := by
  cases l with
  | nil => exact absurd rfl h
  | cons c rest =>
    have := escape_length_pos c
    simp only [escLen_cons]
    omega

theorem reverse_take_reverse (s : List Char) (k : Nat) :
    (s.reverse.take k).reverse = s.drop (s.length - k) := by
  rw [← List.rtake_eq_reverse_take_reverse, List.rtake]

theorem escLen_reverse_take (s : List Char) (k : Nat) :
    escLen (s.reverse.take k) = escLen (s.drop (s.length - k)) := by
  rw [← escLen_reverse (s.reverse.take k), reverse_take_reverse]

/-- Characterization of `TextEscaper.escapeLimitLeft`: the result is the
escape of a suffix of the text together with its codepoint count, the suffix
fits into the budget, and it is the longest suffix that does. -/
theorem escapeLimitLeft_spec (s : List Char) (m : Int) :
    (escapeLimitLeft s m).1 = escStr (s.drop (s.length - (escapeLimitLeft s m).2)) ∧
    (escapeLimitLeft s m).2 ≤ s.length ∧
    (escLen (s.drop (s.length - (escapeLimitLeft s m).2)) : Int) ≤ max m 0 ∧
    ∀ j, (escapeLimitLeft s m).2 < j → j ≤ s.length →
      m < (escLen (s.drop (s.length - j)) : Int) := by
  unfold escapeLimitLeft
  split
  · rename_i hm
    refine ⟨by simp, by simp, by simp, ?_⟩
    intro j hj hj2
    have hlen : (s.drop (s.length - j)).length = j := by
      rw [List.length_drop]
      omega
    have : 1 ≤ escLen (s.drop (s.length - j)) := by
      apply escLen_pos
      intro hnil
      rw [hnil] at hlen
      simp at hlen
      omega
    omega
  · rename_i hm
    obtain ⟨h1, h2, h3, h4⟩ := escLeftGo_spec m s.reverse 0 (by omega)
    rw [List.length_reverse] at h2
    refine ⟨?_, h2, ?_, ?_⟩
    · rw [h1, ← escStr_length] at *
      rw [reverse_take_reverse]
    · rw [← escLen_reverse_take]
      omega
    · intro j hj hj2
      have := h4 j hj (by rw [List.length_reverse]; exact hj2)
      rw [escLen_reverse_take] at this
      omega

/-- When the whole text fits into the budget, `escapeLimitRight` consumes all
of it. -/
theorem escapeLimitRight_fits (s : List Char) (m : Int) (h : (escLen s : Int) ≤ m) :
    escapeLimitRight s m = (escStr s, s.length) := by
  obtain ⟨h1, h2, h3, h4⟩ := escapeLimitRight_spec s m
  have hk : (escapeLimitRight s m).2 = s.length := by
    by_contra hne
    have := h4 s.length (by omega) (le_refl _)
    rw [List.take_length] at this
    omega
  rw [Prod.ext_iff]
  refine ⟨?_, hk⟩
  rw [h1, hk, List.take_length]

/-- When the whole text fits into the budget, `escapeLimitLeft` consumes all
of it. -/
theorem escapeLimitLeft_fits (s : List Char) (m : Int) (h : (escLen s : Int) ≤ m) :
    escapeLimitLeft s m = (escStr s, s.length) := by
  obtain ⟨h1, h2, h3, h4⟩ := escapeLimitLeft_spec s m
  have hk : (escapeLimitLeft s m).2 = s.length := by
    by_contra hne
    have := h4 s.length (by omega) (le_refl _)
    rw [Nat.sub_self, List.drop_zero] at this
    omega
  rw [Prod.ext_iff]
  refine ⟨?_, hk⟩
  rw [h1, hk, Nat.sub_self, List.drop_zero]

theorem escapeLimitRight_length_le (s : List Char) (m : Int) :
    ((escapeLimitRight s m).1.length : Int) ≤ max m 0 := by
  obtain ⟨h1, _, h3, _⟩ := escapeLimitRight_spec s m
  rw [h1, escStr_length]
  exact h3

theorem escapeLimitLeft_length_le (s : List Char) (m : Int) :
    ((escapeLimitLeft s m).1.length : Int) ≤ max m 0 := by
  obtain ⟨h1, _, h3, _⟩ := escapeLimitLeft_spec s m
  rw [h1, escStr_length]
  exact h3

theorem escapeLimitRight_count_le (s : List Char) (m : Int) :
    (escapeLimitRight s m).2 ≤ s.length :=
  (escapeLimitRight_spec s m).2.1

/-- C7: both greedy truncation functions of `TextEscaper` are idempotent and
greedy-maximal.  A string whose total escaped length fits within the budget is
consumed completely (full escaped text, codepoint count equal to the string's
length); in general `escapeLimitRight` returns the escape of a prefix and its
codepoint count such that the prefix's total escaped length fits the budget
and no longer prefix fits, and `escapeLimitLeft` does the same for a
suffix. -/
theorem escapeLimit_greedy_maximal (s : List Char) (m : Int) :
    ((escLen s : Int) ≤ m →
      escapeLimitRight s m = (escStr s, s.length) ∧
      escapeLimitLeft s m = (escStr s, s.length)) ∧
    ((escapeLimitRight s m).1 = escStr (s.take (escapeLimitRight s m).2) ∧
      (escapeLimitRight s m).2 ≤ s.length ∧
      (escLen (s.take (escapeLimitRight s m).2) : Int) ≤ max m 0 ∧
      ∀ j, (escapeLimitRight s m).2 < j → j ≤ s.length →
        m < (escLen (s.take j) : Int)) ∧
    ((escapeLimitLeft s m).1 = escStr (s.drop (s.length - (escapeLimitLeft s m).2)) ∧
      (escapeLimitLeft s m).2 ≤ s.length ∧
      (escLen (s.drop (s.length - (escapeLimitLeft s m).2)) : Int) ≤ max m 0 ∧
      ∀ j, (escapeLimitLeft s m).2 < j → j ≤ s.length →
        m < (escLen (s.drop (s.length - j)) : Int)) :=
  ⟨fun h => ⟨escapeLimitRight_fits s m h, escapeLimitLeft_fits s m h⟩,
    escapeLimitRight_spec s m, escapeLimitLeft_spec s m⟩

/-- Witness for C7 at a concrete input: the string `ab` escapes to itself with
length 2 ≤ 9, so both functions return it unchanged with count 2. -/
theorem escapeLimit_greedy_maximal_witness :
    escapeLimitRight "ab".data 9 = ("ab", 2) ∧ escapeLimitLeft "ab".data 9 = ("ab", 2) := by
  have h := (escapeLimit_greedy_maximal "ab".data 9).1 (by decide)
  exact ⟨h.1.trans (by decide), h.2.trans (by decide)⟩

/-- C3: for any line, any anomaly range `0 ≤ startColumn ≤ endColumn ≤
len(line)` and any `maxPartLength ≥ 1` (and non-negative `minAfterLength`;
the source uses the constant 20), the total rendered excerpt length — escaped
before-context plus highlighted part plus after-context, decoration codes
excluded — never exceeds `maxPartLength`. -/
theorem excerpt_length_bound (line : List Char) (startColumn endColumn : Nat)
    (maxPartLength minAfterLength : Int)
    (hse : startColumn ≤ endColumn) (hel : endColumn ≤ line.length)
    (hm : 1 ≤ maxPartLength) (hmal : 0 ≤ minAfterLength) :
    ((renderExcerpt line startColumn endColumn maxPartLength minAfterLength).1.length : Int) +
      ((renderExcerpt line startColumn endColumn maxPartLength minAfterLength).2.1.length : Int) +
      ((renderExcerpt line startColumn endColumn maxPartLength minAfterLength).2.2.1.length : Int) ≤
      maxPartLength := by
  have hP := escapeLimitRight_length_le ((line.drop startColumn).take (endColumn - startColumn))
    maxPartLength
  simp only [renderExcerpt]
  set t := escapeLimitRight ((line.drop startColumn).take (endColumn - startColumn)) maxPartLength
    with ht
  have hP2 : (t.1.length : Int) ≤ max maxPartLength 0 := by
    rw [ht]
    exact escapeLimitRight_length_le _ _
  set ml1 := max 0 (maxPartLength - (t.1.length : Int)) with hml1
  split
  next hpc =>
    set mal := min (min ((line.length : Int) - (endColumn : Int)) (ml1 / 2)) minAfterLength
      with hmal
    set bL := min (startColumn : Int) (ml1 - mal) with hbL
    set t2 := escapeLimitLeft (line.take startColumn) bL with ht2
    have hB : (t2.1.length : Int) ≤ max bL 0 := by
      rw [ht2]
      exact escapeLimitLeft_length_le _ _
    set ml2 := max 0 (ml1 - (t2.1.length : Int)) with hml2
    set t3 := escapeLimitRight (line.drop endColumn) ml2 with ht3
    have hA : (t3.1.length : Int) ≤ max ml2 0 := by
      rw [ht3]
      exact escapeLimitRight_length_le _ _
    omega
  next hpc =>
    set bL := min (startColumn : Int) (ml1 - 0) with hbL
    set t2 := escapeLimitLeft (line.take startColumn) bL with ht2
    have hB : (t2.1.length : Int) ≤ max bL 0 := by
      rw [ht2]
      exact escapeLimitLeft_length_le _ _
    have hz : ((("", 0) : String × Nat)).1.length = 0 := rfl
    omega

/-- Witness for C3 at a concrete input. -/
theorem excerpt_length_bound_witness :
    ((renderExcerpt "hello world".data 6 11 8 20).1.length : Int) +
      ((renderExcerpt "hello world".data 6 11 8 20).2.1.length : Int) +
      ((renderExcerpt "hello world".data 6 11 8 20).2.2.1.length : Int) ≤ 8 :=
  excerpt_length_bound "hello world".data 6 11 8 20 (by decide) (by decide) (by decide)
    (by decide)

/-! ## Well-formedness of emitted events

`EvOk lineNr line ev` collects the properties every event emitted by the
per-line pass satisfies: it reports the line it was found on, its columns are
ordered and within the line, and its message is not the decode-failure
message. -/

def EvOk (lineNr : Nat) (l : List Char) (ev : Event) : Prop :=
  ev.lineNr = lineNr ∧ ev.line = l ∧ 0 ≤ ev.startColumn ∧
    ev.startColumn ≤ ev.endColumn ∧ ev.endColumn ≤ (l.length : Int) ∧
    ev.msg ≠ msgDecodeErr

/-- Two strings differing at some position are distinct. -/
theorem string_ne_of_getElem (s t : String) (i : Nat) (a b : Char)
    (ha : s.data[i]? = some a) (hb : t.data[i]? = some b) (hab : a ≠ b) : s ≠ t := by
  intro h
  rw [h] at ha
  rw [ha] at hb
  exact hab (Option.some.inj hb)

theorem uniMsg_ne_decodeErr (c : Char) (b : Bool) : uniMsg c b ≠ msgDecodeErr := by
  apply string_ne_of_getElem (uniMsg c b) msgDecodeErr 1 'n' 'T'
  · show (uniMsg c b).data[1]? = some 'n'
    unfold uniMsg
    rw [String.data_append]
    rfl
  · rfl
  · decide

theorem tagMsg_ne_decodeErr (n : List Char) (b : Bool) : tagMsg n b ≠ msgDecodeErr := by
  apply string_ne_of_getElem (tagMsg n b) msgDecodeErr 0 'O' 'U'
  · show (tagMsg n b).data[0]? = some 'O'
    unfold tagMsg
    rw [String.data_append]
    rfl
  · rfl
  · decide

theorem runLen_le (p : Char → Bool) (l : List Char) : runLen p l ≤ l.length :=
  List.Sublist.length_le (List.takeWhile_sublist p)

theorem runLen_true (p : Char → Bool) :
    ∀ (l : List Char) (j : Nat), j < runLen p l → p (l.getD j ' ') = true := by
  intro l
  induction l with
  | nil => intro j hj; simp [runLen] at hj
  | cons c rest ih =>
    intro j hj
    simp only [runLen, List.takeWhile_cons] at hj
    by_cases hc : p c
    · simp only [hc, if_true, List.length_cons] at hj
      cases j with
      | zero => simpa using hc
      | succ j => simpa using ih j (by simpa [runLen] using Nat.lt_of_succ_lt_succ hj)
    · simp [hc] at hj

theorem runLen_false (p : Char → Bool) :
    ∀ (l : List Char), runLen p l < l.length → p (l.getD (runLen p l) ' ') = false := by
  intro l
  induction l with
  | nil => intro h; simp [runLen] at h
  | cons c rest ih =>
    intro h
    by_cases hc : p c
    · have : runLen p (c :: rest) = runLen p rest + 1 := by simp [runLen, List.takeWhile_cons, hc]
      rw [this] at h ⊢
      simpa using ih (by simpa using Nat.lt_of_succ_lt_succ h)
    · have : runLen p (c :: rest) = 0 := by simp [runLen, List.takeWhile_cons, hc]
      rw [this]
      simpa using hc

theorem getD_reverse (l : List Char) (k : Nat) (h : k < l.length) :
    l.reverse.getD k ' ' = l.getD (l.length - 1 - k) ' ' := by
  rw [List.getD_eq_getElem _ _ (by rw [List.length_reverse]; exact h), List.getElem_reverse,
    List.getD_eq_getElem _ _ (by omega)]

theorem trimMatch_bounds (l : List Char) (s e : Nat) (h : trimMatch l = some (s, e)) :
    s < e ∧ e ≤ l.length := by
  simp only [trimMatch] at h
  split at h
  · exact absurd h (by simp)
  · rename_i hne
    obtain ⟨rfl, rfl⟩ : runLen pyIsSpace l = s ∧ l.length - runLen pyIsSpace l.reverse = e := by
      have := Option.some.inj h
      exact ⟨congrArg Prod.fst this, congrArg Prod.snd this⟩
    have hs : runLen pyIsSpace l < l.length :=
      lt_of_le_of_ne (runLen_le _ _) hne
    have ht : runLen pyIsSpace l.reverse ≤ l.length := by
      have := runLen_le pyIsSpace l.reverse
      simpa using this
    refine ⟨?_, by omega⟩
    by_contra hc
    have hsum : l.length ≤ runLen pyIsSpace l + runLen pyIsSpace l.reverse := by omega
    have h1 : pyIsSpace (l.getD (runLen pyIsSpace l) ' ') = false := runLen_false _ _ hs
    have hidx : l.length - 1 - runLen pyIsSpace l < runLen pyIsSpace l.reverse := by omega
    have h2 : pyIsSpace (l.reverse.getD (l.length - 1 - runLen pyIsSpace l) ' ') = true :=
      runLen_true _ _ _ hidx
    rw [getD_reverse l _ (by omega)] at h2
    have hix : l.length - 1 - (l.length - 1 - runLen pyIsSpace l) = runLen pyIsSpace l := by
      omega
    rw [hix] at h2
    rw [h1] at h2
    exact Bool.false_ne_true h2

theorem prefixIMatch_length : ∀ (p t : List Char), prefixIMatch p t = true → p.length ≤ t.length
  | [], _, _ => by simp
  | _ :: _, [], h => by simp [prefixIMatch] at h
  | a :: ps, c :: cs, h => by
    simp only [prefixIMatch, Bool.and_eq_true] at h
    simpa using prefixIMatch_length ps cs h.2

theorem charRunsGo_bounds (p : Char → Bool) :
    ∀ (fuel : Nat) (l : List Char) (i : Nat) (r : Nat × Nat),
      r ∈ charRunsGo p fuel l i → i ≤ r.1 ∧ r.1 < r.2 ∧ r.2 ≤ i + l.length := by
  intro fuel
  induction fuel with
  | zero => intro l i r hr; simp [charRunsGo] at hr
  | succ fuel ih =>
    intro l i r hr
    cases l with
    | nil => simp [charRunsGo] at hr
    | cons c rest =>
      rw [charRunsGo] at hr
      by_cases hc : p c
      · rw [if_pos hc] at hr
        rcases List.mem_cons.mp hr with h | h
        · subst h
          have := runLen_le p rest
          refine ⟨le_refl _, by omega, by simp; omega⟩
        · have := ih (rest.drop (runLen p rest)) (i + 1 + runLen p rest) r h
          rw [List.length_drop] at this
          have hrl := runLen_le p rest
          simp only [List.length_cons]
          omega
      · rw [if_neg hc] at hr
        have := ih rest (i + 1) r hr
        simp only [List.length_cons]
        omega

theorem charRuns_bounds (p : Char → Bool) (l : List Char) (i : Nat) (r : Nat × Nat)
    (hr : r ∈ charRuns p l i) : i ≤ r.1 ∧ r.1 < r.2 ∧ r.2 ≤ i + l.length :=
  charRunsGo_bounds p (l.length + 1) l i r hr

theorem scanIter_mem (step : Nat → Option (Nat × List Event)) :
    ∀ (fuel i : Nat) (ev : Event), ev ∈ scanIter step i fuel →
      ∃ j e evs, step j = some (e, evs) ∧ ev ∈ evs := by
  intro fuel
  induction fuel with
  | zero => intro i ev hev; simp [scanIter] at hev
  | succ fuel ih =>
    intro i ev hev
    rw [scanIter] at hev
    cases hstep : step i with
    | none =>
      rw [hstep] at hev
      exact ih (i + 1) ev hev
    | some r =>
      obtain ⟨e, evs⟩ := r
      rw [hstep] at hev
      rcases List.mem_append.mp hev with h | h
      · exact ⟨i, e, evs, by rw [hstep], h⟩
      · exact ih (max e (i + 1)) ev h

theorem findQGo_ge (l : List Char) : ∀ (fuel p : Nat), p ≤ findQGo l fuel p := by
  intro fuel
  induction fuel with
  | zero => intro p; simp [findQGo]
  | succ fuel ih =>
    intro p
    rw [findQGo]
    split
    · exact le_refl _
    · have := ih (p + 1)
      omega

theorem findQ_ge (l : List Char) : ∀ p : Nat, p ≤ findQ l p := by
  intro p
  exact findQGo_ge l (l.length + 1) p

theorem findQGo_le (l : List Char) :
    ∀ (fuel p : Nat), l.length + 1 ≤ fuel + p → p ≤ l.length → findQGo l fuel p ≤ l.length := by
  intro fuel
  induction fuel with
  | zero => intro p hf hp; omega
  | succ fuel ih =>
    intro p hf hp
    rw [findQGo]
    split
    · exact hp
    · rename_i h
      have hlt : p < l.length := by
        by_contra hc
        exact h (by rw [List.drop_eq_nil_of_le (by omega)]; decide)
      exact ih (p + 1) (by omega) (by omega)

theorem findQ_le (l : List Char) : ∀ p : Nat, p ≤ l.length → findQ l p ≤ l.length := by
  intro p hp
  exact findQGo_le l (l.length + 1) p (by omega) hp

theorem findIdx?_lt_aux (p : Char → Bool) :
    ∀ (l : List Char) (s k : Nat), List.findIdx? p l s = some k → s ≤ k ∧ k < s + l.length := by
  intro l
  induction l with
  | nil => intro s k h; simp [List.findIdx?] at h
  | cons c rest ih =>
    intro s k h
    simp only [List.findIdx?] at h
    by_cases hc : p c
    · rw [if_pos hc] at h
      have := Option.some.inj h
      simp
      omega
    · rw [if_neg hc] at h
      have := ih (s + 1) k h
      simp
      omega

theorem findIdx?_lt (p : Char → Bool) (l : List Char) (k : Nat)
    (h : List.findIdx? p l = some k) : k < l.length := by
  have := findIdx?_lt_aux p l 0 k h
  omega

theorem lastIdx_lt (p : Char → Bool) (l : List Char) (j : Nat) (h : lastIdx p l = some j) :
    j < l.length := by
  unfold lastIdx at h
  cases hf : l.reverse.findIdx? p with
  | none => rw [hf] at h; exact absurd h (by simp)
  | some k =>
    rw [hf] at h
    have hk := findIdx?_lt p l.reverse k hf
    rw [List.length_reverse] at hk
    have : l.length - 1 - k = j := by exact Option.some.inj h
    omega

theorem unicodeScanGo_evOk (path : String) (n : Nat) (l : List Char) :
    ∀ (cs : List Char) (i : Nat) (ma : Bool), i + cs.length ≤ l.length →
      ∀ ev ∈ unicodeScanGo path n l cs i ma, EvOk n l ev := by
  intro cs
  induction cs with
  | nil =>
    intro i ma hlen ev hev
    simp [unicodeScanGo] at hev
  | cons c rest ih =>
    intro i ma hlen ev hev
    simp only [unicodeScanGo] at hev
    rcases List.mem_append.mp hev with h1 | h1
    · split at h1
      · rcases List.mem_singleton.mp h1 with rfl
        simp only [List.length_cons] at hlen
        refine ⟨rfl, rfl, ?_, ?_, ?_, uniMsg_ne_decodeErr _ _⟩
        · simp
        · simp only [mkEv_startColumn, mkEv_endColumn]
          omega
        · simp only [mkEv_endColumn, mkEv_line]
          omega
      · simp at h1
    · exact ih (i + 1) _ (by simp at hlen; omega) ev h1

theorem tagMatchAfter_bounds (cl : Bool) (r : List Char) (len : Nat) (cl2 : Bool)
    (nm : List Char) (h : tagMatchAfter cl r = some (len, cl2, nm)) :
    1 ≤ len ∧ len ≤ (if cl then 2 else 1) + r.length := by
  unfold tagMatchAfter at h
  cases ht : tryTagNames r with
  | none => rw [ht] at h; exact absurd h (by simp)
  | some name =>
    rw [ht] at h
    have e1 : (if cl then 2 else 1) + name.length + 1 = len :=
      congrArg (fun x => x.1) (Option.some.inj h)
    have hb : name.length < r.length := by
      unfold tryTagNames at ht
      rcases List.exists_of_findSome?_eq_some ht with ⟨pat, _, hpat⟩
      split at hpat
      · rename_i hcond
        rcases Bool.and_eq_true_iff.mp hcond with ⟨hpre, hget⟩
        have h1 := prefixIMatch_length pat r hpre
        have h2 : pat.length < r.length := by
          rcases List.getElem?_eq_some.mp (of_decide_eq_true hget) with ⟨hlt, _⟩
          exact hlt
        rw [← Option.some.inj hpat, List.length_take]
        omega
      · exact absurd hpat (by simp)
    cases cl <;> simp at e1 ⊢ <;> omega

theorem tagMatchAt_bounds (l : List Char) (i : Nat) (len : Nat) (cl : Bool) (nm : List Char)
    (h : tagMatchAt l i = some (len, cl, nm)) : 1 ≤ len ∧ i + len ≤ l.length := by
  have hdl : (l.drop i).length = l.length - i := List.length_drop i l
  unfold tagMatchAt at h
  split at h
  case h_1 r2 heq =>
    have hb := tagMatchAfter_bounds _ _ _ _ _ h
    simp only [if_pos] at hb
    rw [heq] at hdl
    simp at hdl
    omega
  case h_3 => exact absurd h (by simp)
  case h_2 =>
    rename_i r1 hnot heq
    have hb := tagMatchAfter_bounds _ _ _ _ _ h
    simp at hb
    rw [heq] at hdl
    simp at hdl
    omega

theorem brMatchAt_bounds (l : List Char) (i : Nat) (len : Nat) (op nm cl : List Char)
    (h : brMatchAt l i = some (len, op, nm, cl)) : 1 ≤ len ∧ i + len ≤ l.length := by
  have hdl : (l.drop i).length = l.length - i := List.length_drop i l
  simp only [brMatchAt] at h
  split at h
  case h_2 => exact absurd h (by simp)
  case h_1 r1 heq =>
    rw [heq] at hdl
    simp only [List.length_cons] at hdl
    set opRun := runLen (fun c => c = '<' || c = Char.ofNat 96) r1 with hop
    set r2 := r1.drop opRun with hr2
    set r3 := r2.drop 2 with hr3
    set clRun := runLen (fun c => c = '>' || c = Char.ofNat 96) r3 with hcl
    split at h
    case isFalse => exact absurd h (by simp)
    case isTrue hbr =>
      split at h
      case h_2 => exact absurd h (by simp)
      case h_1 j hj =>
        have e1 : 1 + opRun + 2 + j + 1 = len :=
          congrArg (fun x => x.1) (Option.some.inj h)
        have hbr2 : 2 ≤ r2.length := by
          have := prefixIMatch_length _ _ hbr
          simpa using this
        have hople : opRun ≤ r1.length := by
          rw [hop]
          exact runLen_le _ _
        have hj2 : j < (r3.take clRun).length := lastIdx_lt _ _ _ hj
        have hj3 : (r3.take clRun).length ≤ r3.length := by
          simp [List.length_take]
        have hlen2 : r2.length = r1.length - opRun := by
          rw [hr2, List.length_drop]
        have hlen3 : r3.length = r2.length - 2 := by
          rw [hr3, List.length_drop]
        omega

theorem linkCloseMatch_le (s : List Char) (clen : Nat) (h : linkCloseMatch s = some clen) :
    1 ≤ clen ∧ clen ≤ s.length := by
  simp only [linkCloseMatch] at h
  set w := runLen pyIsSpace s with hw
  set s1 := s.drop w with hs1
  split at h
  case h_2 => exact absurd h (by simp)
  case h_1 j hj =>
    have e1 : w + (if s1.headD ' ' = '"' then 1 else 0) + j + 1 = clen := Option.some.inj h
    have hj2 := lastIdx_lt _ _ _ hj
    have hj3 : (((s1.drop (if s1.headD ' ' = '"' then 1 else 0)).take
        (runLen (fun c => c = ']' || c = Char.ofNat 96)
          (s1.drop (if s1.headD ' ' = '"' then 1 else 0)))).length) ≤
        s1.length - (if s1.headD ' ' = '"' then 1 else 0) := by
      simp [List.length_take, List.length_drop]
    have hwle : w ≤ s.length := by
      rw [hw]
      exact runLen_le _ _
    have hs1len : s1.length = s.length - w := by
      rw [hs1, List.length_drop]
    by_cases hq : s1.headD ' ' = '"'
    · have hs1ne : s1 ≠ [] := by
        intro hnil
        rw [hnil] at hq
        exact absurd hq (by decide)
      have hs1pos : 1 ≤ s1.length := by
        rcases s1 with _ | _
        · exact absurd rfl hs1ne
        · simp
      rw [if_pos hq] at e1
      rw [if_pos hq] at hj2 hj3
      omega
    · rw [if_neg hq] at e1
      rw [if_neg hq] at hj2 hj3
      omega

theorem linkMatchAt_bounds (l : List Char) (i : Nat) (len obl : Nat) (oq : Bool)
    (url : List Char) (h : linkMatchAt l i = some (len, obl, oq, url)) :
    1 ≤ len ∧ i + len ≤ l.length := by
  have hdl : (l.drop i).length = l.length - i := List.length_drop i l
  simp only [linkMatchAt] at h
  split at h
  case h_2 => exact absurd h (by simp)
  case h_1 r1 heq =>
    rw [heq] at hdl
    simp only [List.length_cons] at hdl
    set obRun := runLen (fun c => c = '[' || c = Char.ofNat 96) r1 with hob
    set r2 := r1.drop obRun with hr2
    set oqn := (if r2.headD ' ' = '"' then 1 else 0 : Nat) with hoq
    set r3 := r2.drop oqn with hr3
    set sp := runLen pyIsSpace r3 with hsp
    set r4 := r3.drop sp with hr4
    split at h
    case h_2 => exact absurd h (by simp)
    case h_1 t cl2 hfind =>
      have e1 : 1 + obRun + oqn + sp + t + cl2 = len :=
        congrArg (fun x => x.1) (Option.some.inj h)
      rcases List.exists_of_findSome?_eq_some hfind with ⟨t0, ht0mem, ht0⟩
      rcases Option.map_eq_some'.mp ht0 with ⟨cl0, hcl0, hpair⟩
      have ht0r : t0 ≤ r4.length := by
        have := List.mem_range.mp ht0mem
        omega
      have et : t0 = t := congrArg (fun x => x.1) hpair
      have ec : cl0 = cl2 := congrArg (fun x => x.2) hpair
      subst et
      subst ec
      have hcle := linkCloseMatch_le _ _ hcl0
      rw [List.length_drop] at hcle
      have hoble : obRun ≤ r1.length := by
        rw [hob]
        exact runLen_le _ _
      have hr2len : r2.length = r1.length - obRun := by
        rw [hr2, List.length_drop]
      have hr3len : r3.length = r2.length - oqn := by
        rw [hr3, List.length_drop]
      have hsple : sp ≤ r3.length := by
        rw [hsp]
        exact runLen_le _ _
      have hr4len : r4.length = r3.length - sp := by
        rw [hr4, List.length_drop]
      have hoqle : oqn ≤ r2.length := by
        by_cases hq : r2.headD ' ' = '"'
        · have : r2 ≠ [] := by
            intro hnil
            rw [hnil] at hq
            exact absurd hq (by decide)
          have : 1 ≤ r2.length := by
            rcases r2 with _ | _
            · exact absurd rfl this
            · simp
          rw [hoq, if_pos hq]
          omega
        · rw [hoq, if_neg hq]
          omega
      omega

theorem uploadTokenAt_bounds (l : List Char) (j : Nat) (le me : Nat)
    (h : uploadTokenAt l j = some (le, me)) :
    j + 8 ≤ le ∧ le ≤ l.length ∧ le ≤ me ∧ me ≤ l.length := by
  simp only [uploadTokenAt] at h
  split at h
  case isFalse => exact absurd h (by simp)
  case isTrue hpre =>
    split at h
    case isTrue => exact absurd h (by simp)
    case isFalse hrun =>
      have hple := prefixIMatch_length _ _ hpre
      rw [List.length_drop] at hple
      have hud : ("upload:".data).length = 7 := rfl
      have hrle : runLen (fun c => !pyIsSpace c) (l.drop (j + 7)) ≤ l.length - (j + 7) := by
        have := runLen_le (fun c => !pyIsSpace c) (l.drop (j + 7))
        rw [List.length_drop] at this
        exact this
      have e1 : j + 7 + runLen (fun c => !pyIsSpace c) (l.drop (j + 7)) = le :=
        congrArg (fun x => x.1) (Option.some.inj h)
      have e2 : (if j + 7 + runLen (fun c => !pyIsSpace c) (l.drop (j + 7)) < l.length
          then j + 7 + runLen (fun c => !pyIsSpace c) (l.drop (j + 7)) + 1
          else j + 7 + runLen (fun c => !pyIsSpace c) (l.drop (j + 7))) = me :=
        congrArg (fun x => x.2) (Option.some.inj h)

      split at e2 <;> omega

theorem headlineMatch_bounds (l : List Char) (m : HlMatch) (h : headlineMatch l = some m) :
    1 ≤ m.b ∧ m.a + m.b + m.c + m.d + m.e2 ≤ m.q ∧ m.q + m.w1 + m.g ≤ l.length := by
  simp only [headlineMatch] at h
  split at h
  case isTrue => exact absurd h (by simp)
  case isFalse hb =>
    rcases Option.some.inj h with rfl
    dsimp only
    set a := runLen pyIsSpace l with ha
    set b := runLen (fun c => c = '=') (l.drop a) with hbd
    set c := runLen pyIsSpace (l.drop (a + b)) with hc
    set d := runLen (fun x => x = '#' || x = '*') (l.drop (a + b + c)) with hd
    set e2 := runLen pyIsSpace (l.drop (a + b + c + d)) with he2
    have hble : b ≤ (l.drop a).length := by
      rw [hbd]
      exact runLen_le _ _
    have hcle : c ≤ (l.drop (a + b)).length := by
      rw [hc]
      exact runLen_le _ _
    have hdle : d ≤ (l.drop (a + b + c)).length := by
      rw [hd]
      exact runLen_le _ _
    have he2le : e2 ≤ (l.drop (a + b + c + d)).length := by
      rw [he2]
      exact runLen_le _ _
    have hale : a ≤ l.length := by
      rw [ha]
      exact runLen_le _ _
    simp only [List.length_drop] at hble hcle hdle he2le
    have hple : a + b + c + d + e2 ≤ l.length := by omega
    have hq1 := findQ_ge l (a + b + c + d + e2)
    have hq2 := findQ_le l (a + b + c + d + e2) hple
    have hw1le : runLen pyIsSpace (l.drop (findQ l (a + b + c + d + e2))) ≤
        l.length - findQ l (a + b + c + d + e2) := by
      have := runLen_le pyIsSpace (l.drop (findQ l (a + b + c + d + e2)))
      rw [List.length_drop] at this
      exact this
    have hgle : runLen (fun c => c = '=') (l.drop (findQ l (a + b + c + d + e2) +
        runLen pyIsSpace (l.drop (findQ l (a + b + c + d + e2))))) ≤
        l.length - (findQ l (a + b + c + d + e2) +
          runLen pyIsSpace (l.drop (findQ l (a + b + c + d + e2)))) := by
      have := runLen_le (fun c => c = '=') (l.drop (findQ l (a + b + c + d + e2) +
        runLen pyIsSpace (l.drop (findQ l (a + b + c + d + e2)))))
      rw [List.length_drop] at this
      exact this
    omega

theorem headlineEvents_evOk (path : String) (n : Nat) (l : List Char) :
    ∀ ev ∈ headlineEvents path n l, EvOk n l ev := by
  intro ev hev
  unfold headlineEvents at hev
  cases hm : headlineMatch l with
  | none => rw [hm] at hev; simp at hev
  | some m =>
    rw [hm] at hev
    obtain ⟨hb1, hpq, hqwg⟩ := headlineMatch_bounds l m hm
    have htl : ((l.drop (m.a + m.b + m.c + m.d + m.e2)).take
        (m.q - (m.a + m.b + m.c + m.d + m.e2))).length =
        m.q - (m.a + m.b + m.c + m.d + m.e2) := by
      simp only [List.length_take, List.length_drop]
      omega
    simp only [List.mem_append] at hev
    rcases hev with (hev | hev) | hev
    · split at hev
      · rcases List.mem_singleton.mp hev with rfl
        refine ⟨rfl, rfl, by simp, ?_, ?_, by simp only [mkEv_msg]; decide⟩ <;> simp <;> omega
      · simp at hev
    · split at hev
      · rcases List.mem_singleton.mp hev with rfl
        refine ⟨rfl, rfl, by simp, ?_, ?_, by simp only [mkEv_msg]; decide⟩ <;> simp <;> omega
      · simp at hev
    · by_cases htext : (l.drop (m.a + m.b + m.c + m.d + m.e2)).take
          (m.q - (m.a + m.b + m.c + m.d + m.e2)) = []
      · rw [if_pos htext] at hev
        rcases List.mem_singleton.mp hev with rfl
        refine ⟨rfl, rfl, ?_, ?_, ?_, by simp only [mkEv_msg]; decide⟩ <;> simp <;> omega
      · rw [if_neg htext] at hev
        have hpltq : m.a + m.b + m.c + m.d + m.e2 < m.q := by
          rcases Nat.lt_or_ge (m.a + m.b + m.c + m.d + m.e2) m.q with hlt | hge
          · exact hlt
          · exfalso
            apply htext
            have hz : m.q - (m.a + m.b + m.c + m.d + m.e2) = 0 := by omega
            rw [hz]
            simp
        simp only [List.mem_append] at hev
        rcases hev with ((hev | hev) | hev) | hev
        · rcases List.mem_map.mp hev with ⟨r, hrmem, rfl⟩
          have hr := List.mem_filter.mp hrmem
          have hrb := charRuns_bounds _ _ 0 r hr.1
          rw [htl] at hrb
          refine ⟨rfl, rfl, ?_, ?_, ?_, by simp only [mkEv_msg]; decide⟩ <;> simp <;> omega
        · by_cases hc0 : m.c = 0
          · rw [if_pos hc0] at hev
            rcases List.mem_singleton.mp hev with rfl
            by_cases hd0 : m.d ≠ 0
            · refine ⟨rfl, rfl, ?_, ?_, ?_, by simp only [mkEv_msg]; decide⟩ <;> simp [hd0] <;> omega
            · refine ⟨rfl, rfl, ?_, ?_, ?_, by simp only [mkEv_msg]; decide⟩ <;> simp [hd0] <;> omega
          · rw [if_neg hc0] at hev
            simp at hev
        · split at hev
          · rcases List.mem_singleton.mp hev with rfl
            refine ⟨rfl, rfl, ?_, ?_, ?_, by simp only [mkEv_msg]; decide⟩ <;> simp <;> omega
          · simp at hev
        · by_cases hg0 : m.g = 0
          · rw [if_pos hg0] at hev
            rcases List.mem_singleton.mp hev with rfl
            refine ⟨rfl, rfl, ?_, ?_, ?_, by simp only [mkEv_msg]; decide⟩ <;> simp <;> omega
          · rw [if_neg hg0] at hev
            simp only [List.mem_append] at hev
            rcases hev with (hev | hev) | hev
            · split at hev
              · rcases List.mem_singleton.mp hev with rfl
                refine ⟨rfl, rfl, ?_, ?_, ?_, by simp only [mkEv_msg]; decide⟩ <;> simp <;> omega
              · simp at hev
            · split at hev
              · rename_i hw1z
                rcases List.mem_singleton.mp hev with rfl
                refine ⟨rfl, rfl, ?_, ?_, ?_, by simp only [mkEv_msg]; decide⟩ <;> simp <;> omega
              · simp at hev
            · split at hev
              · rcases List.mem_singleton.mp hev with rfl
                refine ⟨rfl, rfl, ?_, ?_, ?_, by simp only [mkEv_msg]; decide⟩ <;> simp <;> omega
              · simp at hev

theorem oldTagEvents_evOk (path : String) (n : Nat) (l : List Char) :
    ∀ ev ∈ oldTagEvents path n l, EvOk n l ev := by
  intro ev hev
  rcases scanIter_mem _ _ _ _ hev with ⟨j, e, evs, hstep, hmem⟩
  unfold tagStep at hstep
  rcases ht : tagMatchAt l j with _ | ⟨len, cl, nm⟩
  · rw [ht] at hstep
    exact absurd hstep (by simp)
  · rw [ht] at hstep
    simp only [Option.some.injEq, Prod.mk.injEq] at hstep
    rw [← hstep.2] at hmem
    rcases List.mem_singleton.mp hmem with rfl
    have hb := tagMatchAt_bounds l j len cl nm ht
    refine ⟨rfl, rfl, ?_, ?_, ?_, tagMsg_ne_decodeErr _ _⟩ <;> simp <;> omega

theorem brEvents_evOk (path : String) (n : Nat) (l : List Char) :
    ∀ ev ∈ brEvents path n l, EvOk n l ev := by
  intro ev hev
  rcases scanIter_mem _ _ _ _ hev with ⟨j, e, evs, hstep, hmem⟩
  unfold brStep at hstep
  rcases ht : brMatchAt l j with _ | ⟨len, op, nm, cl⟩
  · rw [ht] at hstep
    exact absurd hstep (by simp)
  · rw [ht] at hstep
    simp only [Option.some.injEq, Prod.mk.injEq] at hstep
    rw [← hstep.2] at hmem
    have hb := brMatchAt_bounds l j len op nm cl ht
    split at hmem
    · rcases List.mem_singleton.mp hmem with rfl
      refine ⟨rfl, rfl, ?_, ?_, ?_, by simp only [mkEv_msg]; decide⟩ <;> simp <;> omega
    · split at hmem
      · rcases List.mem_singleton.mp hmem with rfl
        refine ⟨rfl, rfl, ?_, ?_, ?_, by simp only [mkEv_msg]; decide⟩ <;> simp <;> omega
      · simp at hmem

theorem linkEvents_evOk (path : String) (n : Nat) (l : List Char) :
    ∀ ev ∈ linkEvents path n l, EvOk n l ev := by
  intro ev hev
  rcases scanIter_mem _ _ _ _ hev with ⟨j, e, evs, hstep, hmem⟩
  unfold linkStep at hstep
  rcases ht : linkMatchAt l j with _ | ⟨len, obl, oq, url⟩
  · rw [ht] at hstep
    exact absurd hstep (by simp)
  · rw [ht] at hstep
    simp only [Option.some.injEq, Prod.mk.injEq] at hstep
    rw [← hstep.2] at hmem
    have hb := linkMatchAt_bounds l j len obl oq url ht
    split at hmem
    · rcases List.mem_singleton.mp hmem with rfl
      refine ⟨rfl, rfl, ?_, ?_, ?_, by simp only [mkEv_msg]; decide⟩ <;> simp <;> omega
    · split at hmem
      · rcases List.mem_singleton.mp hmem with rfl
        refine ⟨rfl, rfl, ?_, ?_, ?_, by simp only [mkEv_msg]; decide⟩ <;> simp <;> omega
      · simp at hmem

theorem uploadEvents_evOk (path : String) (n : Nat) (l : List Char) :
    ∀ ev ∈ uploadEvents path n l, EvOk n l ev := by
  intro ev hev
  rcases scanIter_mem _ _ _ _ hev with ⟨j, e, evs, hstep, hmem⟩
  unfold uploadStep at hstep
  split at hstep
  · split at hstep
    case h_1 le me heq =>
      simp only [Option.some.injEq, Prod.mk.injEq] at hstep
      rw [← hstep.2] at hmem
      rcases List.mem_singleton.mp hmem with rfl
      have hb := uploadTokenAt_bounds l 0 le me heq
      refine ⟨rfl, rfl, ?_, ?_, ?_, by simp only [mkEv_msg]; decide⟩ <;> simp <;> omega
    case h_2 =>
      split at hstep
      · split at hstep
        case h_1 le me heq =>
          simp only [Option.some.injEq, Prod.mk.injEq] at hstep
          rw [← hstep.2] at hmem
          rcases List.mem_singleton.mp hmem with rfl
          have hb := uploadTokenAt_bounds l 1 le me heq
          refine ⟨rfl, rfl, ?_, ?_, ?_, by simp only [mkEv_msg]; decide⟩ <;> simp <;> omega
        case h_2 => exact absurd hstep (by simp)
      · exact absurd hstep (by simp)
  · split at hstep
    · split at hstep
      case h_1 le me heq =>
        simp only [Option.some.injEq, Prod.mk.injEq] at hstep
        rw [← hstep.2] at hmem
        rcases List.mem_singleton.mp hmem with rfl
        have hb := uploadTokenAt_bounds l (j + 1) le me heq
        refine ⟨rfl, rfl, ?_, ?_, ?_, by simp only [mkEv_msg]; decide⟩ <;> simp <;> omega
      case h_2 => exact absurd hstep (by simp)
    · exact absurd hstep (by simp)

theorem contentEvents_evOk (path : String) (n : Nat) (l : List Char) :
    ∀ ev ∈ contentEvents path n l, EvOk n l ev := by
  intro ev hev
  unfold contentEvents at hev
  simp only [List.mem_append] at hev
  rcases hev with (((hev | hev) | hev) | hev) | hev
  · exact oldTagEvents_evOk path n l ev hev
  · exact brEvents_evOk path n l ev hev
  · exact headlineEvents_evOk path n l ev hev
  · exact linkEvents_evOk path n l ev hev
  · exact uploadEvents_evOk path n l ev hev

theorem firstCharMatch_bounds (l : List Char) (c : Char) (extra : Nat)
    (h : firstCharMatch l = some (c, extra)) : 1 + extra ≤ l.length := by
  unfold firstCharMatch at h
  split at h
  · exact absurd h (by simp)
  case h_2 c0 rest =>
    split at h
    · have he : runLen (fun x => x = ':' || x = ';') rest = extra :=
        congrArg (fun x => x.2) (Option.some.inj h)
      have hle := runLen_le (fun x => x = ':' || x = ';') rest
      simp only [List.length_cons]
      omega
    · exact absurd h (by simp)

theorem oldListMatch_bounds (l : List Char) (e : Nat) (h : oldListMatch l = some e) :
    1 ≤ e ∧ e ≤ l.length := by
  have hle := runLen_le (fun c => decide (c = '*') || decide (c = '#')) l
  unfold oldListMatch at h
  split at h
  case h_5 => exact absurd h (by simp)
  all_goals
    simp only [Option.some.injEq] at h
    rw [← h]
    refine ⟨?_, hle⟩
    simp [runLen, List.takeWhile_cons]

theorem scanLineContent_evOk (path : String) (n : Nat) (l : List Char) (st : ScanState) :
    ∀ ev ∈ (scanLineContent path n l st).1, EvOk n l ev := by
  intro ev hev
  unfold scanLineContent at hev
  split at hev
  case h_1 c extra heq =>
    have hb := firstCharMatch_bounds l c extra heq
    split at hev
    · rcases List.mem_singleton.mp hev with rfl
      refine ⟨rfl, rfl, ?_, ?_, ?_, by simp only [mkEv_msg]; decide⟩ <;> simp <;> omega
    · split at hev
      · rcases List.mem_singleton.mp hev with rfl
        refine ⟨rfl, rfl, ?_, ?_, ?_, by simp only [mkEv_msg]; decide⟩ <;> simp <;> omega
      · exact contentEvents_evOk path n l ev hev
  case h_2 => exact contentEvents_evOk path n l ev hev

theorem scanLineRedirect_evOk (path : String) (n : Nat) (l : List Char) (st : ScanState)
    (d : Bool) : ∀ ev ∈ (scanLineRedirect path n l st d).1, EvOk n l ev := by
  intro ev hev
  unfold scanLineRedirect at hev
  split at hev
  case h_1 name heq =>
    split at hev
    · split at hev
      · rcases List.mem_singleton.mp hev with rfl
        refine ⟨rfl, rfl, ?_, ?_, ?_, by simp only [mkEv_msg]; decide⟩ <;> simp <;> omega
      · simp at hev
    · rcases List.mem_singleton.mp hev with rfl
      refine ⟨rfl, rfl, ?_, ?_, ?_, by simp only [mkEv_msg]; decide⟩ <;> simp <;> omega
  case h_2 =>
    split at hev
    · simp at hev
    · exact scanLineContent_evOk path n l st ev hev

theorem mem_ite_fst {c : Prop} [Decidable c] (a b : List Event × ScanState) (ev : Event)
    (h : ev ∈ (if c then a else b).1) : (c ∧ ev ∈ a.1) ∨ (¬c ∧ ev ∈ b.1) := by
  by_cases hc : c
  · rw [if_pos hc] at h
    exact Or.inl ⟨hc, h⟩
  · rw [if_neg hc] at h
    exact Or.inr ⟨hc, h⟩

theorem scanLine_evOk (path : String) (n : Nat) (l : List Char) (st : ScanState) :
    ∀ ev ∈ (scanLine path n l st).1, EvOk n l ev := by
  intro ev hev
  have huni : ∀ ev2 ∈ unicodeScan path n l, EvOk n l ev2 := by
    intro ev2 hev2
    exact unicodeScanGo_evOk path n l l 0 false (by simp) ev2 hev2
  have hlist : ∀ ev2 ∈ (match oldListMatch l with
      | some e => [mkEv path n 0 (e : Int) l msgOldList]
      | none => ([] : List Event)), EvOk n l ev2 := by
    intro ev2 hev2
    rcases hlm : oldListMatch l with _ | e
    · rw [hlm] at hev2
      simp at hev2
    · rw [hlm] at hev2
      rcases List.mem_singleton.mp hev2 with rfl
      have hb := oldListMatch_bounds l e hlm
      refine ⟨rfl, rfl, ?_, ?_, ?_, by simp only [mkEv_msg]; decide⟩ <;> simp <;> omega
  unfold scanLine at hev
  rcases mem_ite_fst _ _ ev hev with ⟨_, h⟩ | ⟨_, h⟩
  · simp only [List.mem_append] at h
    rcases h with h | h
    · exact huni ev h
    · exact hlist ev h
  · simp only [List.mem_append] at h
    rcases h with (h | h) | h
    · exact huni ev h
    · exact hlist ev h
    · rcases mem_ite_fst _ _ ev h with ⟨_, h2⟩ | ⟨_, h2⟩
      · rcases htm : trimMatch l with _ | se
        · rw [htm] at h2
          exact scanLineRedirect_evOk path n l _ _ ev h2
        · rw [htm] at h2
          simp only at h2
          rcases List.mem_singleton.mp h2 with rfl
          have hb := trimMatch_bounds l se.1 se.2 (by rw [htm])
          refine ⟨rfl, rfl, ?_, ?_, ?_, by simp only [mkEv_msg]; decide⟩ <;> simp <;> omega
      · exact scanLineRedirect_evOk path n l _ _ ev h2

theorem scanLinesGo_evOk (path : String) :
    ∀ (ls : List (List Char)) (n : Nat) (st : ScanState) (ev : Event),
      ev ∈ scanLinesGo path ls n st → ∃ l2, ev.line = l2 ∧ EvOk ev.lineNr l2 ev := by
  intro ls
  induction ls with
  | nil => intro n st ev hev; simp [scanLinesGo] at hev
  | cons l rest ih =>
    intro n st ev hev
    simp only [scanLinesGo, List.mem_append] at hev
    rcases hev with hev | hev
    · have h := scanLine_evOk path n l st ev hev
      exact ⟨l, h.2.1, h.1 ▸ h⟩
    · exact ih (n + 1) _ ev hev

/-! ## Claim theorems -/

/-- C2 (amended): every event emitted by the per-line detectors satisfies
`0 ≤ startColumn ≤ endColumn ≤ len(lineText)`; the invalid-encoding event
emitted on decode failure instead carries `startColumn = len(lineText)` and
`endColumn = len(lineText) + 1`, so for a whole file scan the bound is
`endColumn ≤ len(lineText) + 1`. -/
theorem event_columns_in_range :
    (∀ (path : String) (lines : List (List Char)) (ev : Event), ev ∈ scanLines path lines →
      0 ≤ ev.startColumn ∧ ev.startColumn ≤ ev.endColumn ∧
        ev.endColumn ≤ (ev.line.length : Int)) ∧
    (∀ (path : String) (bs : List Nat) (ev : Event), ev ∈ scanFile path bs →
      0 ≤ ev.startColumn ∧ ev.startColumn ≤ ev.endColumn ∧
        ev.endColumn ≤ (ev.line.length : Int) + 1) := by
  have hl : ∀ (path : String) (lines : List (List Char)) (ev : Event), ev ∈ scanLines path lines →
      0 ≤ ev.startColumn ∧ ev.startColumn ≤ ev.endColumn ∧
        ev.endColumn ≤ (ev.line.length : Int) := by
    intro path lines ev hev
    rcases scanLinesGo_evOk path lines 0 ⟨1, false⟩ ev hev with ⟨l2, hl2, hok⟩
    obtain ⟨_, _, h0, h1, h2, _⟩ := hok
    rw [hl2]
    exact ⟨h0, h1, h2⟩
  refine ⟨hl, ?_⟩
  intro path bs ev hev
  unfold scanFile at hev
  split at hev
  · rcases List.mem_singleton.mp hev with rfl
    refine ⟨?_, ?_, ?_⟩ <;> simp <;> omega
  · have := hl path _ ev hev
    omega

/-- Witness for C2 (amended) at a concrete input: the single event emitted for
the line `:)`. -/
theorem event_columns_in_range_witness :
    0 ≤ (mkEv "p" 0 0 1 [':', ')'] msgIndent).startColumn ∧
      (mkEv "p" 0 0 1 [':', ')'] msgIndent).startColumn ≤
        (mkEv "p" 0 0 1 [':', ')'] msgIndent).endColumn ∧
      (mkEv "p" 0 0 1 [':', ')'] msgIndent).endColumn ≤
        (((mkEv "p" 0 0 1 [':', ')'] msgIndent).line.length : Int)) :=
  event_columns_in_range.1 "p" [[':', ')']] (mkEv "p" 0 0 1 [':', ')'] msgIndent) (by decide)

/-- Counterexample to C2 as stated: on the file bytes `41 FF` the decode
failure emits an event with `endColumn = 2` on the one-character partial line
`A`, exceeding the line length. -/
theorem event_columns_counterexample :
    ¬ (∀ ev ∈ scanFiles [("p", [0x41, 0xff])],
        0 ≤ ev.startColumn ∧ ev.startColumn ≤ ev.endColumn ∧
          ev.endColumn ≤ (ev.line.length : Int)) := by
  decide

/-- C1: the `Redirect in non-first line` branch is dead code.  On the
two-line file `x` / `#REDIRECT Foo` the scan emits nothing at all (the
redirect on line 2 is accepted as valid because `firstDirectiveLine` is the
constant `1`, which is truthy; its increment sits after the comment
`continue` and never executes), while a first-line `#REDIRECT` without target
does emit `Redirect without target`. -/
theorem redirect_nonfirst_dead :
    scanLines "p" ["x".data, "#REDIRECT Foo".data] = [] ∧
    scanLines "p" ["#REDIRECT".data] =
      [mkEv "p" 0 0 9 "#REDIRECT".data msgRedirectNoTarget] := by
  decide

/-- C4: the smiley guard is dead code: the first alternative `[:;]*` of the
first-character regex matches the empty string, so `:)` is reported as
`Old wiki indenting` at columns 0-1 despite the `Do not match smilies`
comment in the source. -/
theorem smiley_guard_dead :
    scanLines "p" [":)".data] = [mkEv "p" 0 0 1 ":)".data msgIndent] := by
  decide

/-- Counterexample to C5 as stated: `==Title==` also emits the
missing-whitespace-before-close-tag anomaly at column 7. -/
theorem headline_extra_anomaly :
    mkEv "p" 0 7 8 "==Title==".data msgHlNoWsClose ∈ scanLines "p" ["==Title==".data] := by
  decide

/-- C5 (amended): `==Title==` emits exactly two anomalies — missing
whitespace after the open tag at column 2 and missing whitespace before the
close tag at column 7 — and nothing else. -/
theorem headline_missing_ws_events :
    scanLines "p" ["==Title==".data] =
      [mkEv "p" 0 2 3 "==Title==".data msgHlNoWsOpen,
        mkEv "p" 0 7 8 "==Title==".data msgHlNoWsClose] := by
  decide

/-- Counterexample to C6 as stated: the forced-linebreak match `<br>` does
not stop the detector chain — the upload detector still reports
`upload:x` later in the same line. -/
theorem br_not_terminal :
    mkEv "p" 0 5 13 "<br> upload:x".data msgUpload ∈
      scanLines "p" ["<br> upload:x".data] := by
  decide

/-- C6 (amended): a single-angle pair emits `Old wiki linebreak`, a
double-angle pair with inner token other than exactly `BR` emits
`Invalid linebreak`, and the detector does not stop the chain: later
detectors still run on the line (the `continue` in the source only advances
to the next forced-linebreak match). -/
theorem br_linebreak_events :
    scanLines "p" ["<br> upload:x".data] =
      [mkEv "p" 0 0 4 "<br> upload:x".data msgOldLinebreak,
        mkEv "p" 0 5 13 "<br> upload:x".data msgUpload] ∧
    scanLines "p" ["<<br>>".data] =
      [mkEv "p" 0 0 6 "<<br>>".data msgInvalidLinebreak] := by
  decide

/-- Counterexample to C9 as stated: two upload tokens separated by a single
whitespace character yield one anomaly, not two — the bounding whitespace is
consumed by the first match, so no second match starts. -/
theorem upload_adjacent_tokens_counterexample :
    ¬ (uploadEvents "p" 0 "upload:a upload:b".data).length = 2 := by
  decide

/-- C9 (amended): the upload detector emits one anomaly per non-overlapping
match of `(^|\s)(upload:\S+)(\s|$)`; because the trailing whitespace is part
of the match, `upload:a upload:b` yields exactly one anomaly (columns 0-8)
while `upload:a  upload:b` (two spaces) yields two. -/
theorem upload_events_nonoverlapping :
    uploadEvents "p" 0 "upload:a upload:b".data =
      [mkEv "p" 0 0 8 "upload:a upload:b".data msgUpload] ∧
    uploadEvents "p" 0 "upload:a  upload:b".data =
      [mkEv "p" 0 0 8 "upload:a  upload:b".data msgUpload,
        mkEv "p" 0 10 18 "upload:a  upload:b".data msgUpload] := by
  decide

/-- C8: on the file bytes `41 FF` the scan emits exactly one
invalid-encoding anomaly and abandons that file (no per-line detectors run
on it), and the next file is still scanned; but the anomaly's `lineNr` is
`len(lines) + 1 = 1`, one past the partial line (index 0) on which decoding
failed — every other call site passes 0-based line indices, so the reported
position is one line off. -/
theorem decode_failure_behaviour :
    scanFiles [("f1", [0x41, 0xff]), ("f2", [0x2a, 0x78])] =
      [mkEv "f1" 1 1 2 ['A'] msgDecodeErr,
        mkEv "f2" 0 0 1 ['*', 'x'] msgOldList] := by
  decide

/-- C10: a file whose byte sequence decodes cleanly but ends inside a
multi-byte UTF-8 sequence (non-empty decoder state) produces no
invalid-encoding anomaly: the `final` flag `i == lastI` with
`lastI = len(textBytes) + 1` is never true for any loop index, so the
incomplete trailing bytes are silently dropped and the scan proceeds on the
decoded lines alone. -/
theorem incomplete_tail_silently_dropped (path : String) (bs : List Nat)
    (ls : List (List Char)) (lastLine : List Char) (pend : List Nat)
    (hdec : decodeLoop bs = .ok (ls, lastLine, pend)) (hpend : pend ≠ []) :
    scanFile path bs = scanLines path (ls ++ [lastLine]) ∧
    ∀ ev ∈ scanFile path bs, ev.msg ≠ msgDecodeErr := by
  have h1 : scanFile path bs = scanLines path (ls ++ [lastLine]) := by
    unfold scanFile
    rw [hdec]
  refine ⟨h1, ?_⟩
  intro ev hev
  rw [h1] at hev
  rcases scanLinesGo_evOk path (ls ++ [lastLine]) 0 ⟨1, false⟩ ev hev with ⟨l2, _, hok⟩
  exact hok.2.2.2.2.2

/-- Witness for C10 at a concrete input: the bytes `41 C3` (an `A` followed
by the first byte of a two-byte sequence) decode without error to the single
line `A` with pending state `C3`, and the scan equals the plain line scan. -/
theorem incomplete_tail_witness :
    scanFile "p" [0x41, 0xc3] = scanLines "p" [['A']] :=
  (incomplete_tail_silently_dropped "p" [0x41, 0xc3] [] ['A'] [0xc3] rfl
    (by decide)).1

end LarpWiki
